import Mathlib

/-!
# Verification of the vcflib haplotype-statistics drivers

Shallow embedding of the iHS, hapLRT and meltEHH drivers of vcflib
(`src/iHS.cpp`, `src/hapLrt.cpp`, `src/meltEHH.cpp`) together with the
pieces of shared infrastructure they use (the genetic map, the EHH window
engine, the haplotype block-length scan).

Modelling conventions:
* C++ `double` arithmetic is embedded as exact rational arithmetic (`ℚ`);
  the transcendental functions (`log`, `exp`) used by hapLRT are embedded
  over `ℝ` via `Real.log` / `Real.exp`.
* C++ `std::string` haplotypes become `List Char`; `std::map<string,int>`
  becomes an association list updated in place.
* `std::vector` indexing uses `List.getD`; the C++ sources perform a few
  out-of-bounds reads (undefined behaviour) which the embedding renders
  total with a default value, and every concrete input used in a theorem
  below stays away from those corners unless the corner is the point.
* Fatal `exit(1)` paths inside the computational core are embedded as
  `Option.none`.
-/

set_option allowUnsafeReducibility true in
attribute [semireducible] Rat.add Rat.mul Rat.div Rat.sub Rat.neg Rat.inv

namespace Vcflib

/-- One sample's pair of phased haplotype strings (`first`/`second`
chromosome copy), as in `std::vector<std::pair<std::string,std::string>>`. -/
abbrev Haps := List (List Char × List Char)

/-- Truncation of a rational toward zero, the conversion applied when a C++
`double` is passed to an `int` parameter. -/
def truncToInt (q : ℚ) : ℤ :=
  if 0 ≤ q then ⌊q⌋ else -⌊-q⌋

/-- Modelled from the spec: `r8_choose` from `pdflib` (only declared in
`pdflib.hpp`; its definition is not under `src/`).  Per §4.4 of the spec the
EHH engine uses it as "the number of unordered pairs `C(count,2)`", so it is
modelled as the binomial coefficient, returned as a rational (the C++
function returns `double`). -/
def r8_choose (n k : ℤ) : ℚ :=
  (n.toNat.choose k.toNat : ℚ)

/-- The window substring `h.substr(start, end - start)` of a haplotype. -/
def winSub (h : List Char) (start e : ℤ) : List Char :=
  (h.drop start.toNat).take (e - start).toNat

/-- Counting map from window substrings to occurrence counts, embedding
`std::map<std::string,int>` as an association list. -/
abbrev CountMap := List (List Char × ℕ)

/-- Increment the count of key `k`, inserting it with count 1 when absent
(the effect of `targetH[k]++` after a failed `find`). -/
def bump (m : CountMap) (k : List Char) : CountMap :=
  match m with
  | [] => [(k, 1)]
  | (k0, c) :: rest => if k0 = k then (k0, c + 1) :: rest else (k0, c) :: bump rest k

/-- `countHaps` from iHS.cpp / meltEHH.cpp: for the first `nhaps` samples,
count both window substrings of each sample. -/
def countHaps (nhaps : ℕ) (haps : Haps) (start e : ℤ) : CountMap :=
  (haps.take nhaps).foldl
    (fun m hp => bump (bump m (winSub hp.1 start e)) (winSub hp.2 start e)) []

/-- `computeNs` from iHS.cpp / meltEHH.cpp: sum `r8_choose(count, 2)` over
map entries with count at least 2 whose boundary character (first character
when the end is extending, last character when the start is extending)
equals the anchor allele. -/
def computeNs (m : CountMap) (ref : Char) (dir : Bool) : ℚ :=
  m.foldl
    (fun s th =>
      if th.2 < 2 then s
      else if dir then
        (if th.1.headD ' ' = ref then s + r8_choose th.2 2 else s)
      else
        (if th.1.getLastD ' ' = ref then s + r8_choose th.2 2 else s))
    0

/-- `calcEhh` from iHS.cpp / meltEHH.cpp.  Returns `none` for the fatal
`exit(1)` taken when the computed homozygosity exceeds 1 (the
internal-consistency check), and `some ehh` otherwise.  The C++ function
also returns a `bool` that is the literal `true`; the dead `return 1`
branch guarding it in `integrate` is therefore not represented.
Rational division returns 0 at a zero divisor, where the `double` division
yields NaN (when `sum = 0`) or `+inf` (when `sum > 0`); this model is
therefore exact only when the divisor's pair count is nonzero, i.e. when
the denominator truncates to at least 2.  `calcEhhF` below models the
zero-divisor behaviour of the `double` code exactly. -/
def calcEhh (haps : Haps) (start e : ℤ) (ref : Char) (nhaps : ℕ)
    (div : ℚ) (dir : Bool) : Option ℚ :=
  let refH := countHaps nhaps haps start e
  let sum := computeNs refH ref dir
  let internalEHH := sum / r8_choose (truncToInt div) 2
  if internalEHH > 1 then none else some internalEHH

/-- The genetic map `std::map<int,double>`, as an association list whose
most recent insertion shadows older ones (lookup takes the first match). -/
abbrev GMap := List (ℤ × ℚ)

/-- `gDist` from iHS.cpp / meltEHH.cpp: look up both endpoints; `none` when
either is absent (the C++ function returns `false` and leaves the output
parameter untouched). -/
def gDist (m : GMap) (start e : ℤ) : Option ℚ :=
  match m.lookup start with
  | none => none
  | some a =>
    match m.lookup e with
    | none => none
    | some b => some |a - b|

/-- One parsed line of the genetic map file: sequence id (column 0),
centimorgan value (column 2, via `atof`), physical position (column 3, via
`atoi`).  Tab-splitting and numeric parsing are the external I/O layer. -/
structure GMapLine where
  seqid : List Char
  cm : ℚ
  pos : ℤ

/-- The interpolation fill `for (int i = lastpos; i < pos; i++)` of
`loadGeneticMap`: store `n` consecutive positions starting at `i`, with the
running centimorgan value advancing by `chunk` per base. -/
def fillSeg : ℕ → ℤ → ℚ → ℚ → GMap → GMap
  | 0, _, _, _, m => m
  | n + 1, i, running, chunk, m => fillSeg n (i + 1) (running + chunk) chunk ((i, running) :: m)

/-- Line loop of `loadGeneticMap` from iHS.cpp / meltEHH.cpp, carrying
`lastpos` and `lastvalue` through the file. -/
def loadGeneticMapGo (seqid : List Char) (start e : ℤ) :
    List GMapLine → ℤ → ℚ → GMap → GMap
  | [], _, _, m => m
  | line :: rest, lastpos, lastvalue, m =>
    if line.seqid ≠ seqid then
      loadGeneticMapGo seqid start e rest lastpos lastvalue m
    else if lastpos = 0 ∧ start > line.pos then
      loadGeneticMapGo seqid start e rest line.pos lastvalue m
    else
      let diff : ℤ := |line.pos - lastpos|
      let vdiff : ℚ := |lastvalue - line.cm|
      let chunk : ℚ := vdiff / (diff : ℚ)
      let m2 := fillSeg (line.pos - lastpos).toNat lastpos lastvalue chunk m
      if line.pos > e then m2
      else loadGeneticMapGo seqid start e rest line.pos line.cm m2

/-- `loadGeneticMap` from iHS.cpp / meltEHH.cpp restricted to its
map-building effect (warnings and the fatal empty-map check are I/O). -/
def loadGeneticMap (seqid : List Char) (start e : ℤ) (file : List GMapLine) : GMap :=
  loadGeneticMapGo seqid start e file 0 0 []

/-- Position vector access `pos[i]` for an `int` index. -/
def posAt (pos : List ℤ) (i : ℤ) : ℤ :=
  pos.getD i.toNat 0

/-- The `start -= 1` update of the window start (a no-op when the end is
the extending side). -/
def nextS (direction : Bool) (s : ℤ) : ℤ := if direction then s else s - 1

/-- The `end += 1` update of the window end (a no-op when the start is the
extending side). -/
def nextE (direction : Bool) (e : ℤ) : ℤ := if direction then e + 1 else e

namespace IHS

/-- Loop of `integrate` from iHS.cpp (lines 283-335).  The state carried
across iterations is the previous homozygosity `ehh`, the window bounds
`s`/`e` and the running integral `ihh`.  `none` is the fatal
internal-consistency exit inside `calcEhh`; `some (code, ihh)` is the
`return code` with the accumulated integral.  The loop-exit value is the
literal `return 10` after the `while`.  The `fuel` argument is an
embedding artifact that makes the recursion structural: each loop
iteration moves the extending boundary one step toward the edge of the
matrix, so the wrapper below supplies strictly more fuel than the loop
can consume, and `integrateGo_code` proves the exhaustion value 99 is
never produced. -/
def integrateGo (gm : GMap) (haps : Haps) (pos : List ℤ) (direction : Bool)
    (maxl : ℤ) (ref : Char) (nhaps : ℕ) (denom : ℚ) :
    ℕ → ℚ → ℤ → ℤ → ℚ → Option (ℤ × ℚ)
  | 0, _, _, _, ihh => some (99, ihh)
  | fuel + 1, ehh, s, e, ihh =>
    if ¬ ehh > 1/20 then some (10, ihh)
    else
      if nextS direction s < 0 then some (1, ihh)
      else if nextE direction e > maxl then some (1, ihh)
      else
        match calcEhh haps (nextS direction s) (nextE direction e) ref nhaps denom direction with
        | none => none
        | some ehhRT =>
          if ehhRT ≤ 1/20 then some (0, ihh)
          else
            let delta_gDist : ℚ :=
              if direction then
                (gDist gm (posAt pos (nextE direction e - 1)) (posAt pos (nextE direction e))).getD (1/1000)
              else
                (gDist gm (posAt pos (nextS direction s + 1)) (posAt pos (nextS direction s))).getD (1/1000)
            let dist : ℤ := |posAt pos (nextE direction e - 1) - posAt pos (nextE direction e)|
            if dist > 10000 then some (1, ihh)
            else
              let correction : ℚ := if dist > 5000 then 5000 / (dist : ℚ) else 1
              integrateGo gm haps pos direction maxl ref nhaps denom fuel
                ehhRT (nextS direction s) (nextE direction e)
                (ihh + ((ehh + ehhRT)/2) * delta_gDist * correction)

/-- `integrate` from iHS.cpp: initial window setup ("controls the substring
madness") followed by the loop.  The accumulated integral starts from the
caller's current `*iHH`. -/
def integrate (gm : GMap) (haps : Haps) (pos : List ℤ) (direction : Bool)
    (maxl : ℤ) (snp : ℤ) (ref : Char) (nhaps : ℕ) (ihh : ℚ) (denom : ℚ) :
    Option (ℤ × ℚ) :=
  let start := if direction then snp else snp + 1
  let e := if direction then snp else snp + 1
  let fuel := (maxl + 1 - snp).toNat + (snp + 2).toNat + 1
  integrateGo gm haps pos direction maxl ref nhaps denom fuel 1 start e ihh

/-- One emitted output row of the iHS driver (the numeric payload of the
`cout` line in `calc`; the natural-log column is derived from `ihhR` and
`ihhA` by `Row.printed` below, mirroring `log(ihhA/ihhR)`). -/
structure Row where
  pos : ℤ
  af : ℚ
  ihhR : ℚ
  ihhA : ℚ
  refFail : ℤ
  altFail : ℤ
deriving DecidableEq

/-- The tab-separated columns of the `cout` emission in `calc` of iHS.cpp:
seqid, position, allele frequency, `ihhR`, `ihhA`, `log(ihhA/ihhR)`,
`refFail`, `altFail`. -/
noncomputable def Row.printed (seqid : List Char) (r : Row) :
    List Char × ℤ × ℚ × ℚ × ℚ × ℝ × ℤ × ℤ :=
  (seqid, r.pos, r.af, r.ihhR, r.ihhA, Real.log ((r.ihhA : ℝ) / (r.ihhR : ℝ)), r.refFail, r.altFail)

/-- Body of the per-site loop of `calc` from iHS.cpp (lines 350-394): the
four `integrate` calls accumulating `ihhR`/`ihhA` and the failure counters,
then the 0.0001 degeneracy filter.  Outer `none` is a fatal exit inside an
integration; `some none` is a skipped site; `some (some row)` is an emitted
row. -/
def siteCalc (gm : GMap) (haps : Haps) (nhaps : ℕ) (pos : List ℤ)
    (afs : List ℚ) (maxl : ℤ) (snp : ℤ) : Option (Option Row) :=
  let refH := countHaps nhaps haps snp (snp + 1)
  let denomP1 : ℚ := ((refH.lookup ['0']).getD 0 : ℕ)
  let denomP2 : ℚ := ((refH.lookup ['1']).getD 0 : ℕ)
  match integrate gm haps pos true maxl snp '0' nhaps 0 denomP1 with
  | none => none
  | some (c1, ihh1) =>
    match integrate gm haps pos false maxl snp '0' nhaps ihh1 denomP1 with
    | none => none
    | some (c2, ihhR) =>
      match integrate gm haps pos true maxl snp '1' nhaps 0 denomP2 with
      | none => none
      | some (c3, ihh3) =>
        match integrate gm haps pos false maxl snp '1' nhaps ihh3 denomP2 with
        | none => none
        | some (c4, ihhA) =>
          if ihhR < 1/10000 ∨ ihhA < 1/10000 then some none
          else some (some ⟨posAt pos snp, afs.getD snp.toNat 0, ihhR, ihhA, c1 + c2, c3 + c4⟩)

/-- The per-site loop of `calc` from iHS.cpp over all focal sites, with the
rows collected in emission order (single-threaded; the OpenMP pragma is
compiled out when `HAS_OPENMP` is undefined).  Named `calcSites` because
`calc` is a Lean keyword. -/
def calcSites (gm : GMap) (haps : Haps) (nhaps : ℕ) (pos : List ℤ) (afs : List ℚ) :
    Option (List Row) :=
  let maxl : ℤ := ((haps.headD ([], [])).1.length : ℤ)
  (List.range maxl.toNat).foldl
    (fun acc snp =>
      match acc with
      | none => none
      | some rows =>
        match siteCalc gm haps nhaps pos afs maxl (snp : ℤ) with
        | none => none
        | some none => some rows
        | some (some r) => some (rows ++ [r]))
    (some [])

end IHS

namespace MeltEHH

/-- One line of the meltEHH trace: printed position, printed EHH value,
anchor allele character, direction flag (streams as `1`/`0`). -/
abbrev TraceLine := ℤ × ℚ × Char × Bool

/-- Instance supplied explicitly; automatic synthesis fails to assemble it
for this particular nesting. -/
instance : DecidableEq (ℤ × ℚ × List TraceLine) :=
  fun a b => instDecidableEqProd a b

/-- Loop of `integrate` from meltEHH.cpp (lines 282-328): decay threshold
0.01, no physical-distance cutoff or correction, and one trace line emitted
per completed iteration (printing the pre-step `ehh` value at the new
boundary position).  Fuel as in `IHS.integrateGo`; the exhaustion value 99
is unreachable with the wrapper's fuel. -/
def integrateGo (gm : GMap) (haps : Haps) (pos : List ℤ) (direction : Bool)
    (maxl : ℤ) (ref : Char) (nhaps : ℕ) (denom : ℚ) :
    ℕ → ℚ → ℤ → ℤ → ℚ → Option (ℤ × ℚ × List TraceLine)
  | 0, _, _, _, ihh => some (99, ihh, [])
  | fuel + 1, ehh, s, e, ihh =>
    if ¬ ehh > 1/100 then some (10, ihh, [])
    else
      if nextS direction s < 0 then some (1, ihh, [])
      else if nextE direction e > maxl then some (1, ihh, [])
      else
        match calcEhh haps (nextS direction s) (nextE direction e) ref nhaps denom direction with
        | none => none
        | some ehhRT =>
          if ehhRT ≤ 1/100 then some (0, ihh, [])
          else
            let delta_gDist : ℚ :=
              if direction then
                (gDist gm (posAt pos (nextE direction e - 1)) (posAt pos (nextE direction e))).getD (1/1000)
              else
                (gDist gm (posAt pos (nextS direction s + 1)) (posAt pos (nextS direction s))).getD (1/1000)
            let line : TraceLine :=
              if direction then (posAt pos (nextE direction e), ehh, ref, direction)
              else (posAt pos (nextS direction s), ehh, ref, direction)
            match integrateGo gm haps pos direction maxl ref nhaps denom fuel
                ehhRT (nextS direction s) (nextE direction e)
                (ihh + ((ehh + ehhRT)/2) * delta_gDist) with
            | none => none
            | some (c, q, ls) => some (c, q, line :: ls)

/-- `integrate` from meltEHH.cpp: initial window setup and loop. -/
def integrate (gm : GMap) (haps : Haps) (pos : List ℤ) (direction : Bool)
    (maxl : ℤ) (snp : ℤ) (ref : Char) (nhaps : ℕ) (ihh : ℚ) (denom : ℚ) :
    Option (ℤ × ℚ × List TraceLine) :=
  let start := if direction then snp else snp + 1
  let e := if direction then snp else snp + 1
  let fuel := (maxl + 1 - snp).toNat + (snp + 2).toNat + 1
  integrateGo gm haps pos direction maxl ref nhaps denom fuel 1 start e ihh

/-- Body of the focal-position branch of `calc` from meltEHH.cpp (lines
342-371): the anchor line `pos[snp] \t 1 \t 0 \t 0` followed by the four
integrations, each contributing its trace lines in order; nothing is
emitted afterwards.  `none` is a fatal exit inside an integration. -/
def site (gm : GMap) (haps : Haps) (nhaps : ℕ) (pos : List ℤ)
    (maxl : ℤ) (snp : ℤ) : Option (List TraceLine) :=
  let refH := countHaps nhaps haps snp (snp + 1)
  let denomP1 : ℚ := ((refH.lookup ['0']).getD 0 : ℕ)
  let denomP2 : ℚ := ((refH.lookup ['1']).getD 0 : ℕ)
  let anchor : TraceLine := (posAt pos snp, 1, '0', false)
  match integrate gm haps pos true maxl snp '0' nhaps 0 denomP1 with
  | none => none
  | some (_, ihh1, t1) =>
    match integrate gm haps pos false maxl snp '0' nhaps ihh1 denomP1 with
    | none => none
    | some (_, _, t2) =>
      match integrate gm haps pos true maxl snp '1' nhaps 0 denomP2 with
      | none => none
      | some (_, ihh3, t3) =>
        match integrate gm haps pos false maxl snp '1' nhaps ihh3 denomP2 with
        | none => none
        | some (_, _, t4) => some (anchor :: (t1 ++ t2 ++ t3 ++ t4))

end MeltEHH

namespace HapLrt

/-- Loop of the pairwise block-length walk inside `findLengths` from
hapLrt.cpp (lines 109-126).  `bIdx`/`eIdx` are the offsets of the iterators
`citB`/`citE` from the string beginning; `len` is the running block length.
One iteration may step left (when `citB > cBeg`) and then right (when
`citE < cEnd - 1`); a mismatch on either step is the `break` out of the
whole `while` loop, discarding the iteration's `to_add`.  The fuel makes
the recursion structural; `pairLen` supplies more fuel than the loop can
consume (each iteration either breaks, or increases `len`, or has already
pinned both iterators to the edges, which forces `len = smax`). -/
def pairLenGo (c a : List Char) (smax : ℕ) : ℕ → ℕ → ℕ → ℕ → ℕ
  | 0, _, _, len => len
  | fuel + 1, bIdx, eIdx, len =>
    if ¬ len < smax then len
    else
      let stepB := 0 < bIdx
      let bIdx2 := if stepB then bIdx - 1 else bIdx
      if stepB ∧ c.getD bIdx2 ' ' ≠ a.getD bIdx2 ' ' then len
      else
        let stepE := eIdx < smax - 1
        let eIdx2 := if stepE then eIdx + 1 else eIdx
        if stepE ∧ c.getD eIdx2 ' ' ≠ a.getD eIdx2 ' ' then len
        else
          pairLenGo c a smax fuel bIdx2 eIdx2
            (len + ((if stepB then 1 else 0) + (if stepE then 1 else 0)))

/-- The complete pairwise block length of `findLengths`: 0 when the focal
characters differ, otherwise at least 1 and extended by the walk. -/
def pairLen (c a : List Char) (core : ℕ) (smax : ℕ) : ℕ :=
  if c.getD core ' ' ≠ a.getD core ' ' then 0
  else pairLenGo c a smax (smax + 1) core core 1

/-- Haplotype selection of `findLengths`: index `i` below the group size
picks the first chromosome copy of sample `group[i]`, otherwise the second
copy of sample `group[i - gmax]`. -/
def hapAt (haps : Haps) (group : List ℕ) (i : ℕ) : List Char :=
  let gmax := group.length
  let g := if i < gmax then group.getD i 0 else group.getD (i - gmax) 0
  if i < gmax then (haps.getD g ([], [])).1 else (haps.getD g ([], [])).2

/-- Body of the pair loop of `findLengths`: compute the pair's block
length and max-update the `lengths` entries of both members (the
`if(lengths[i] < len) lengths[i] = len;` pair of lines). -/
def updatePair (haps : Haps) (group : List ℕ) (core smax i : ℕ)
    (L : List ℕ) (j : ℕ) : List ℕ :=
  let len := pairLen (hapAt haps group i) (hapAt haps group j) core smax
  let L1 := if L.getD i 0 < len then L.set i len else L
  if L1.getD j 0 < len then L1.set j len else L1

/-- `findLengths` from hapLrt.cpp: the `lengths` array, zero-initialised,
max-updated for both members of every pair `i < j`. -/
def findLengths (haps : Haps) (group : List ℕ) (core : ℕ) : List ℕ :=
  let gmax := group.length
  let smax := (haps.headD ([], [])).1.length
  (List.range (2 * gmax)).foldl
    (fun L i =>
      ((List.range (2 * gmax)).drop (i + 1)).foldl
        (updatePair haps group core smax i)
        L)
    (List.replicate (2 * gmax) 0)

/-- `mean` from hapLrt.cpp.  The C++ function returns a NaN for an empty
array; the embedding returns the junk value 0 there (division by zero),
and no theorem below touches that case. -/
def mean (dat : List ℕ) : ℚ :=
  (dat.sum : ℚ) / (dat.length : ℚ)

/-- `lexp` from hapLrt.cpp: log of the exponential density
`lambda * e^(-lambda x)`. -/
noncomputable def lexp (x lam : ℝ) : ℝ :=
  Real.log (lam * Real.exp 1 ^ (-lam * x))

/-- `totalLL` from hapLrt.cpp: the summed exponential log-likelihood of the
sample under rate `1/m`. -/
noncomputable def totalLL (dat : List ℕ) (m : ℚ) : ℝ :=
  (dat.map (fun x => lexp (x : ℝ) (1 / (m : ℝ)))).sum

/-- One emitted output row of the hapLRT driver: position, mean target
length, mean background length, the `1 - p` column, and the sign. -/
structure HLRow where
  pos : ℤ
  tm : ℚ
  bm : ℚ
  pcol : ℝ
  dir : ℚ

/-- Body of the per-site loop of `calc` from hapLrt.cpp (lines 243-294).
`chi` abstracts the external `cdfchi` routine from cdflib (not under
`src/`), as the left-tail probability `p` for arguments `(x, df)`; the
driver is embedded uniformly in it.  `none` is the skipped site
(`l < 0`). -/
noncomputable def site (chi : ℝ → ℝ → ℝ) (haps : Haps)
    (target background : List ℕ) (pos : List ℤ) (snp : ℕ) : Option HLRow :=
  let targetLengths := findLengths haps target snp
  let backgroundLengths := findLengths haps background snp
  let totalLengths := targetLengths ++ backgroundLengths
  let tm := mean targetLengths
  let bm := mean backgroundLengths
  let am := mean totalLengths
  let dir : ℚ := if tm < bm then -1 else 1
  let alt : ℝ := totalLL targetLengths tm + totalLL backgroundLengths bm
  let nul : ℝ := totalLL targetLengths am + totalLL backgroundLengths am
  let l : ℝ := 2 * (alt - nul)
  if l < 0 then none
  else some ⟨pos.getD snp 0, tm, bm, 1 - chi l 2, dir⟩

end HapLrt

namespace Region

/-- Modelled from the spec: the `split` helper from `split.h` (not under
`src/`), splitting a string at every occurrence of a single-character
delimiter (§6 describes the delimiters in use: newline, comma, equals,
colon). -/
def splitOnCharGo (d : Char) : List Char → List Char → List (List Char)
  | [], acc => [acc.reverse]
  | ch :: rest, acc =>
    if ch = d then acc.reverse :: splitOnCharGo d rest []
    else splitOnCharGo d rest (ch :: acc)

/-- Split a string at a single-character delimiter. -/
def splitOnChar (d : Char) (s : List Char) : List (List Char) :=
  splitOnCharGo d s []

/-- Inner field scan of the contig-header check in hapLrt.cpp `main` (lines
415-428): walk the comma-separated fields; stop at the first field whose
key is not `ID` (the `break`), report success when the `ID` value equals
the region or its `seqid` part before a colon. -/
def scanInfo (region : List Char) : List (List Char) → Bool
  | [] => false
  | sub :: rest =>
    let subfield := splitOnChar '=' sub
    if subfield.getD 0 [] ≠ "ID".toList then false
    else if subfield.getD 1 [] = region then true
    else
      let subregion := splitOnChar ':' region
      if subfield.getD 1 [] = subregion.getD 0 [] then true
      else scanInfo region rest

/-- Per-header-line contig check of hapLrt.cpp `main` (lines 411-432):
lines starting `##contig` have the bracketed payload
`substr(10, length-11)` comma-split and scanned. -/
def contigLineHas (region headerLine : List Char) : Bool :=
  if headerLine.take 8 = "##contig".toList then
    scanInfo region (splitOnChar ',' ((headerLine.drop 10).take (headerLine.length - 11)))
  else false

/-- `region_exists` of hapLrt.cpp `main`: some header line names the
requested region's contig. -/
def regionExists (header region : List Char) : Bool :=
  (splitOnChar '\n' header).any (contigLineHas region)

/-- Region handling of hapLrt.cpp `main` (lines 407-444): `none` means
execution continues past the region block; `some code` is an immediate
process exit with that code.  `setRegionOk` is the result of the external
`variantFile.setRegion` call. -/
def hapLrtRegionExit (header region : List Char) (setRegionOk : Bool) : Option ℕ :=
  if region = "NA".toList then none
  else if setRegionOk then none
  else if regionExists header region then some 0
  else some 1

/-- Region handling of iHS.cpp `main` (lines 527-534): an empty region is
fatal (exit 1); a failed `setRegion` prints a warning and exits 0. -/
def iHSRegionExit (region : List Char) (setRegionOk : Bool) : Option ℕ :=
  if region = [] then some 1
  else if setRegionOk then none
  else some 0

/-- Region handling of meltEHH.cpp `main` (lines 515-522): an empty region
is fatal (exit 1); a failed `setRegion` is also fatal (exit 1). -/
def meltEHHRegionExit (region : List Char) (setRegionOk : Bool) : Option ℕ :=
  if region = [] then some 1
  else if setRegionOk then none
  else some 1

end Region

/-! ## Return codes of the integration loops -/

/-- A possibly-NaN `double` value: `none` is IEEE NaN, `some q` an exact
finite value.  Positive infinity never needs storing: the only division
that can produce it is checked against 1 inside `calcEhh` and exits. -/
abbrev FVal := Option ℚ

/-- `x > c` on possibly-NaN doubles: every IEEE comparison with NaN is
false. -/
def fgt (x : FVal) (c : ℚ) : Bool :=
  match x with
  | none => false
  | some q => decide (c < q)

/-- `x ≤ c` on possibly-NaN doubles: false when `x` is NaN. -/
def fle (x : FVal) (c : ℚ) : Bool :=
  match x with
  | none => false
  | some q => decide (q ≤ c)

/-- NaN-propagating addition of possibly-NaN doubles (no infinities arise
in the integration loops, so finite-plus-finite and NaN-propagation cover
every reachable case). -/
def fadd : FVal → FVal → FVal
  | some a, some b => some (a + b)
  | _, _ => none

/-- NaN-propagating multiplication by a finite rational. -/
def fmul (x : FVal) (c : ℚ) : FVal :=
  match x with
  | none => none
  | some a => some (a * c)

/-- NaN-propagating division by a nonzero finite rational (only the
literal 2 in the loops). -/
def fdivC (x : FVal) (c : ℚ) : FVal :=
  match x with
  | none => none
  | some a => some (a / c)

@[simp] theorem fgt_some (q c : ℚ) : fgt (some q) c = decide (c < q) := rfl

@[simp] theorem fle_some (q c : ℚ) : fle (some q) c = decide (q ≤ c) := rfl

/-- `calcEhh` with exact IEEE `double` semantics at a zero divisor, the one
place the rational model `calcEhh` is not exact: `0.0/0.0` is NaN, which
fails the `internalEHH > 1` check (every comparison with NaN is false) and
is stored into `*ehh`; `sum/0.0` with `sum > 0` is `+inf`, which passes the
check and hits the fatal `exit(1)` (`sum` is a sum of `r8_choose` values
and hence never negative).  Away from a zero divisor this agrees with
`calcEhh` (`calcEhhF_of_den_ne`). -/
def calcEhhF (haps : Haps) (start e : ℤ) (ref : Char) (nhaps : ℕ)
    (div : ℚ) (dir : Bool) : Option FVal :=
  let refH := countHaps nhaps haps start e
  let sum := computeNs refH ref dir
  let den := r8_choose (truncToInt div) 2
  if den = 0 then
    (if sum = 0 then some none else none)
  else
    (if sum / den > 1 then none else some (some (sum / den)))

/-- Away from a zero divisor, the double-exact `calcEhhF` agrees with the
rational `calcEhh`. -/
theorem calcEhhF_of_den_ne (haps : Haps) (start e : ℤ) (ref : Char)
    (nhaps : ℕ) (div : ℚ) (dir : Bool)
    (hden : r8_choose (truncToInt div) 2 ≠ 0) :
    calcEhhF haps start e ref nhaps div dir
      = Option.map some (calcEhh haps start e ref nhaps div dir) := by
  have h1 : calcEhhF haps start e ref nhaps div dir
      = (if r8_choose (truncToInt div) 2 = 0 then
           (if computeNs (countHaps nhaps haps start e) ref dir = 0 then some none else none)
         else
           (if computeNs (countHaps nhaps haps start e) ref dir
                / r8_choose (truncToInt div) 2 > 1 then none
            else some (some (computeNs (countHaps nhaps haps start e) ref dir
                / r8_choose (truncToInt div) 2)))) := rfl
  have h2 : calcEhh haps start e ref nhaps div dir
      = (if computeNs (countHaps nhaps haps start e) ref dir
             / r8_choose (truncToInt div) 2 > 1 then none
         else some (computeNs (countHaps nhaps haps start e) ref dir
             / r8_choose (truncToInt div) 2)) := rfl
  rw [h1, h2, if_neg hden]
  by_cases h : computeNs (countHaps nhaps haps start e) ref dir
      / r8_choose (truncToInt div) 2 > 1
  · rw [if_pos h, if_pos h]
    rfl
  · rw [if_neg h, if_neg h]
    rfl

/-- Loop of `integrate` from iHS.cpp with exact `double` semantics for the
values that can become NaN: `ehh`, each `ehhRT` and the running integral
are `FVal`.  Identical to `IHS.integrateGo` except that homozygosities come
from `calcEhhF` and the guard, the `ehhRT <= 0.05` check and the integral
update use the NaN-aware operations: a NaN `ehhRT` passes the `<=` check
(false on NaN), is assigned to `ehh`, the `while` guard then fails, and the
loop falls through to `return 10`. -/
def IHS.integrateGoF (gm : GMap) (haps : Haps) (pos : List ℤ) (direction : Bool)
    (maxl : ℤ) (ref : Char) (nhaps : ℕ) (denom : ℚ) :
    ℕ → FVal → ℤ → ℤ → FVal → Option (ℤ × FVal)
  | 0, _, _, _, ihh => some (99, ihh)
  | fuel + 1, ehh, s, e, ihh =>
    if ¬ fgt ehh (1/20) then some (10, ihh)
    else
      if nextS direction s < 0 then some (1, ihh)
      else if nextE direction e > maxl then some (1, ihh)
      else
        match calcEhhF haps (nextS direction s) (nextE direction e) ref nhaps denom direction with
        | none => none
        | some ehhRT =>
          if fle ehhRT (1/20) then some (0, ihh)
          else
            let delta_gDist : ℚ :=
              if direction then
                (gDist gm (posAt pos (nextE direction e - 1)) (posAt pos (nextE direction e))).getD (1/1000)
              else
                (gDist gm (posAt pos (nextS direction s + 1)) (posAt pos (nextS direction s))).getD (1/1000)
            let dist : ℤ := |posAt pos (nextE direction e - 1) - posAt pos (nextE direction e)|
            if dist > 10000 then some (1, ihh)
            else
              let correction : ℚ := if dist > 5000 then 5000 / (dist : ℚ) else 1
              IHS.integrateGoF gm haps pos direction maxl ref nhaps denom fuel
                ehhRT (nextS direction s) (nextE direction e)
                (fadd ihh (fmul (fmul (fdivC (fadd ehh ehhRT) 2) delta_gDist) correction))

/-- `integrate` from iHS.cpp over the double-exact loop `IHS.integrateGoF`. -/
def IHS.integrateF (gm : GMap) (haps : Haps) (pos : List ℤ) (direction : Bool)
    (maxl : ℤ) (snp : ℤ) (ref : Char) (nhaps : ℕ) (ihh : FVal) (denom : ℚ) :
    Option (ℤ × FVal) :=
  let start := if direction then snp else snp + 1
  let e := if direction then snp else snp + 1
  let fuel := (maxl + 1 - snp).toNat + (snp + 2).toNat + 1
  IHS.integrateGoF gm haps pos direction maxl ref nhaps denom fuel (some 1) start e ihh

/-- One line of the meltEHH trace in the double-exact model: the printed
EHH payload may be NaN. -/
abbrev MeltEHH.TraceLineF := ℤ × FVal × Char × Bool

/-- Instances supplied explicitly; automatic synthesis fails to assemble
them for this particular nesting. -/
instance : DecidableEq MeltEHH.TraceLineF :=
  fun a b => instDecidableEqProd a b

instance : DecidableEq (FVal × List MeltEHH.TraceLineF) :=
  fun a b => instDecidableEqProd a b

instance : DecidableEq (ℤ × FVal × List MeltEHH.TraceLineF) :=
  fun a b => instDecidableEqProd a b

/-- Loop of `integrate` from meltEHH.cpp with exact `double` semantics (see
`IHS.integrateGoF`): threshold 0.01, no distance cutoff or correction, one
trace line (printing the pre-step `ehh` at the new boundary position) per
completed iteration. -/
def MeltEHH.integrateGoF (gm : GMap) (haps : Haps) (pos : List ℤ) (direction : Bool)
    (maxl : ℤ) (ref : Char) (nhaps : ℕ) (denom : ℚ) :
    ℕ → FVal → ℤ → ℤ → FVal → Option (ℤ × FVal × List MeltEHH.TraceLineF)
  | 0, _, _, _, ihh => some (99, ihh, [])
  | fuel + 1, ehh, s, e, ihh =>
    if ¬ fgt ehh (1/100) then some (10, ihh, [])
    else
      if nextS direction s < 0 then some (1, ihh, [])
      else if nextE direction e > maxl then some (1, ihh, [])
      else
        match calcEhhF haps (nextS direction s) (nextE direction e) ref nhaps denom direction with
        | none => none
        | some ehhRT =>
          if fle ehhRT (1/100) then some (0, ihh, [])
          else
            let delta_gDist : ℚ :=
              if direction then
                (gDist gm (posAt pos (nextE direction e - 1)) (posAt pos (nextE direction e))).getD (1/1000)
              else
                (gDist gm (posAt pos (nextS direction s + 1)) (posAt pos (nextS direction s))).getD (1/1000)
            let line : MeltEHH.TraceLineF :=
              if direction then (posAt pos (nextE direction e), ehh, ref, direction)
              else (posAt pos (nextS direction s), ehh, ref, direction)
            match MeltEHH.integrateGoF gm haps pos direction maxl ref nhaps denom fuel
                ehhRT (nextS direction s) (nextE direction e)
                (fadd ihh (fmul (fdivC (fadd ehh ehhRT) 2) delta_gDist)) with
            | none => none
            | some (c, q, ls) => some (c, q, line :: ls)

/-- `integrate` from meltEHH.cpp over the double-exact loop. -/
def MeltEHH.integrateF (gm : GMap) (haps : Haps) (pos : List ℤ) (direction : Bool)
    (maxl : ℤ) (snp : ℤ) (ref : Char) (nhaps : ℕ) (ihh : FVal) (denom : ℚ) :
    Option (ℤ × FVal × List MeltEHH.TraceLineF) :=
  let start := if direction then snp else snp + 1
  let e := if direction then snp else snp + 1
  let fuel := (maxl + 1 - snp).toNat + (snp + 2).toNat + 1
  MeltEHH.integrateGoF gm haps pos direction maxl ref nhaps denom fuel (some 1) start e ihh

/-- In the rational model `IHS.integrateGo` (exact whenever the divisor's
pair count is nonzero), every terminating run that starts above the decay
threshold returns 0 or 1: the loop-exit value 10 would need the loop guard
to fail, but the guard holds on entry and every reassignment of `ehh` is
checked against the threshold first; the fuel bound makes the exhaustion
value 99 unreachable. -/
theorem IHS.integrateGo_code (gm : GMap) (haps : Haps) (pos : List ℤ) (direction : Bool)
    (maxl : ℤ) (ref : Char) (nhaps : ℕ) (denom : ℚ) :
    ∀ (fuel : ℕ) (ehh : ℚ) (s e : ℤ) (ihh : ℚ),
      1/20 < ehh →
      (if direction then maxl + 1 - e else s + 1).toNat < fuel →
      ∀ (c : ℤ) (q : ℚ),
        IHS.integrateGo gm haps pos direction maxl ref nhaps denom fuel ehh s e ihh = some (c, q) →
        c = 0 ∨ c = 1 := by
  intro fuel
  induction fuel with
  | zero =>
    intro ehh s e ihh _ hf
    omega
  | succ n ih =>
    intro ehh s e ihh hehh hf c q h
    rw [IHS.integrateGo] at h
    rw [if_neg (not_not_intro hehh)] at h
    by_cases hs0 : nextS direction s < 0
    · rw [if_pos hs0] at h
      injection h with h1
      injection h1 with h2 h3
      omega
    rw [if_neg hs0] at h
    by_cases he0 : nextE direction e > maxl
    · rw [if_pos he0] at h
      injection h with h1
      injection h1 with h2 h3
      omega
    rw [if_neg he0] at h
    rcases hc : calcEhh haps (nextS direction s) (nextE direction e) ref nhaps denom direction with _ | ehhRT
    · rw [hc] at h
      exact Option.noConfusion h
    rw [hc] at h
    dsimp only at h
    by_cases hRT : ehhRT ≤ 1/20
    · rw [if_pos hRT] at h
      injection h with h1
      injection h1 with h2 h3
      omega
    rw [if_neg hRT] at h
    by_cases hdist : |posAt pos (nextE direction e - 1) - posAt pos (nextE direction e)| > 10000
    · rw [if_pos hdist] at h
      injection h with h1
      injection h1 with h2 h3
      omega
    rw [if_neg hdist] at h
    refine ih _ _ _ _ (by linarith [not_le.mp hRT]) ?_ c q h
    cases direction <;> simp [nextS, nextE] at hs0 he0 hf ⊢ <;> omega

/-- In the double-exact iHS loop, with a denominator whose pair count is
nonzero every homozygosity is a genuine rational, so a run entered with a
finite `ehh` above the threshold returns 0 or 1. -/
theorem IHS.integrateGoF_code (gm : GMap) (haps : Haps) (pos : List ℤ) (direction : Bool)
    (maxl : ℤ) (ref : Char) (nhaps : ℕ) (denom : ℚ)
    (hden : r8_choose (truncToInt denom) 2 ≠ 0) :
    ∀ (fuel : ℕ) (v : ℚ) (s e : ℤ) (ihh : FVal),
      1/20 < v →
      (if direction then maxl + 1 - e else s + 1).toNat < fuel →
      ∀ (c : ℤ) (q : FVal),
        IHS.integrateGoF gm haps pos direction maxl ref nhaps denom fuel (some v) s e ihh
          = some (c, q) →
        c = 0 ∨ c = 1 := by
  intro fuel
  induction fuel with
  | zero =>
    intro v s e ihh _ hf
    omega
  | succ n ih =>
    intro v s e ihh hehh hf c q h
    rw [IHS.integrateGoF] at h
    simp only [fgt_some, decide_eq_true_eq] at h
    rw [if_neg (not_not_intro hehh)] at h
    by_cases hs0 : nextS direction s < 0
    · rw [if_pos hs0] at h
      injection h with h1
      injection h1 with h2 h3
      omega
    rw [if_neg hs0] at h
    by_cases he0 : nextE direction e > maxl
    · rw [if_pos he0] at h
      injection h with h1
      injection h1 with h2 h3
      omega
    rw [if_neg he0] at h
    rw [calcEhhF_of_den_ne haps (nextS direction s) (nextE direction e) ref nhaps denom
      direction hden] at h
    rcases hc : calcEhh haps (nextS direction s) (nextE direction e) ref nhaps denom direction
      with _ | ehhRT
    · rw [hc, Option.map_none'] at h
      exact Option.noConfusion h
    rw [hc, Option.map_some'] at h
    dsimp only at h
    simp only [fle_some, decide_eq_true_eq] at h
    by_cases hRT : ehhRT ≤ 1/20
    · rw [if_pos hRT] at h
      injection h with h1
      injection h1 with h2 h3
      omega
    rw [if_neg hRT] at h
    by_cases hdist : |posAt pos (nextE direction e - 1) - posAt pos (nextE direction e)| > 10000
    · rw [if_pos hdist] at h
      injection h with h1
      injection h1 with h2 h3
      omega
    rw [if_neg hdist] at h
    refine ih _ _ _ _ (by linarith [not_le.mp hRT]) ?_ c q h
    cases direction <;> simp [nextS, nextE] at hs0 he0 hf ⊢ <;> omega

/-- In the double-exact meltEHH loop, with a denominator whose pair count
is nonzero, a run entered with a finite `ehh` above the 0.01 threshold
returns 0 or 1 (same argument as for iHS). -/
theorem MeltEHH.integrateGoF_melt_code (gm : GMap) (haps : Haps) (pos : List ℤ) (direction : Bool)
    (maxl : ℤ) (ref : Char) (nhaps : ℕ) (denom : ℚ)
    (hden : r8_choose (truncToInt denom) 2 ≠ 0) :
    ∀ (fuel : ℕ) (v : ℚ) (s e : ℤ) (ihh : FVal),
      1/100 < v →
      (if direction then maxl + 1 - e else s + 1).toNat < fuel →
      ∀ (c : ℤ) (q : FVal) (tr : List MeltEHH.TraceLineF),
        MeltEHH.integrateGoF gm haps pos direction maxl ref nhaps denom fuel (some v) s e ihh
          = some (c, q, tr) →
        c = 0 ∨ c = 1 := by
  intro fuel
  induction fuel with
  | zero =>
    intro v s e ihh _ hf
    omega
  | succ n ih =>
    intro v s e ihh hehh hf c q tr h
    rw [MeltEHH.integrateGoF] at h
    simp only [fgt_some, decide_eq_true_eq] at h
    rw [if_neg (not_not_intro hehh)] at h
    by_cases hs0 : nextS direction s < 0
    · rw [if_pos hs0] at h
      injection h with h1
      injection h1 with h2 h3
      omega
    rw [if_neg hs0] at h
    by_cases he0 : nextE direction e > maxl
    · rw [if_pos he0] at h
      injection h with h1
      injection h1 with h2 h3
      omega
    rw [if_neg he0] at h
    rw [calcEhhF_of_den_ne haps (nextS direction s) (nextE direction e) ref nhaps denom
      direction hden] at h
    rcases hc : calcEhh haps (nextS direction s) (nextE direction e) ref nhaps denom direction
      with _ | ehhRT
    · rw [hc, Option.map_none'] at h
      exact Option.noConfusion h
    rw [hc, Option.map_some'] at h
    dsimp only at h
    simp only [fle_some, decide_eq_true_eq] at h
    by_cases hRT : ehhRT ≤ 1/100
    · rw [if_pos hRT] at h
      injection h with h1
      injection h1 with h2 h3
      omega
    rw [if_neg hRT] at h
    rcases hrec : MeltEHH.integrateGoF gm haps pos direction maxl ref nhaps denom n (some ehhRT)
        (nextS direction s) (nextE direction e)
        (fadd ihh (fmul (fdivC (fadd (some v) (some ehhRT)) 2)
          ((if direction then
              (gDist gm (posAt pos (nextE direction e - 1)) (posAt pos (nextE direction e))).getD (1/1000)
            else
              (gDist gm (posAt pos (nextS direction s + 1)) (posAt pos (nextS direction s))).getD (1/1000))))) with
      _ | res
    · rw [hrec] at h
      exact Option.noConfusion h
    · rw [hrec] at h
      obtain ⟨c2, q2, ls2⟩ := res
      have hcc : c2 = c := by
        injection h with h1
        injection h1 with h2 h3
      subst hcc
      refine ih ehhRT (nextS direction s) (nextE direction e) _
        (by linarith [not_le.mp hRT]) ?_ c2 q2 ls2 hrec
      cases direction <;> simp [nextS, nextE] at hs0 he0 hf ⊢ <;> omega

/-! ## Concrete inputs used by several theorems -/

/-- Two target samples (four haplotype copies) of length 4: all copies
carry the reference allele at focal index 2, the four copies agree
pairwise on columns 1-2 in two groups, and are pairwise distinct on
columns 0-2. -/
def gapHaps : Haps :=
  [("0000".toList, "1000".toList), ("0100".toList, "1100".toList)]

/-- Marker positions with a 21000 bp gap between indices 0 and 1, a
20000 bp gap between indices 1 and 2, and a 100 bp gap between indices 2
and 3. -/
def gapPos : List ℤ := [0, 21000, 41000, 41100]

/-- One sample with both copies `00`: at the focal column 0 no copy
carries the alternate allele `1`, so the alternate-allele denominator the
driver would pass is 0. -/
def nanHaps : Haps := [("00".toList, "00".toList)]

/-- Return codes of the iHS `integrate` wrapper in the rational model:
only 0 or 1 when a value is returned at all. -/
theorem IHS.integrate_code (gm : GMap) (haps : Haps) (pos : List ℤ)
    (direction : Bool) (maxl snp : ℤ) (ref : Char) (nhaps : ℕ) (ihh denom : ℚ)
    (c : ℤ) (q : ℚ)
    (h : IHS.integrate gm haps pos direction maxl snp ref nhaps ihh denom = some (c, q)) :
    c = 0 ∨ c = 1 := by
  rw [IHS.integrate] at h
  refine IHS.integrateGo_code gm haps pos direction maxl ref nhaps denom _ 1 _ _ ihh
    (by norm_num) ?_ c q h
  cases direction <;> simp <;> omega

/-- Return codes of the double-exact iHS `integrate` wrapper when the
denominator's pair count is nonzero. -/
theorem IHS.integrateF_code (gm : GMap) (haps : Haps) (pos : List ℤ)
    (direction : Bool) (maxl snp : ℤ) (ref : Char) (nhaps : ℕ) (ihh : FVal) (denom : ℚ)
    (hden : r8_choose (truncToInt denom) 2 ≠ 0) (c : ℤ) (q : FVal)
    (h : IHS.integrateF gm haps pos direction maxl snp ref nhaps ihh denom = some (c, q)) :
    c = 0 ∨ c = 1 := by
  rw [IHS.integrateF] at h
  refine IHS.integrateGoF_code gm haps pos direction maxl ref nhaps denom hden _ 1 _ _ ihh
    (by norm_num) ?_ c q h
  cases direction <;> simp <;> omega

/-- C10 counterexample: with denominator 0 (the alternate-allele count at a
focal column where no copy carries `1`), the first window has `sum = 0` and
`r8_choose(0, 2) = 0`, so the homozygosity is `0.0/0.0 = NaN`; NaN passes
the `ehhRT <= threshold` check (IEEE comparisons with NaN are false), is
assigned to `ehh`, the `while` guard then fails, and both integration loops
fall through to the `return 10` the original claim asserts unreachable, with
a NaN integral. -/
theorem integrate_nan_returns_ten :
    IHS.integrateF [] nanHaps [100, 200] true 1 0 '1' 1 (some 0) 0
        = some (10, none)
    ∧ MeltEHH.integrateF [] nanHaps [100, 200] true 1 0 '1' 1 (some 0) 0
        = some (10, none, [(200, some 1, '1', true)]) :=
  ⟨by decide, by decide⟩

/-- C10 as amended: whenever the denominator truncates to at least 2 — as
in every driver call whose site retains two copies of the allele, where the
denominator is an allele copy count with `C(denom, 2) ≥ 1` — `integrate` of
both iHS and meltEHH returns only the codes 0 (homozygosity decayed to or
below the driver threshold: 0.05 for iHS, 0.01 for meltEHH) or 1 (window
ran off the matrix, or for iHS a gap over 10000 bp) when it returns a value
at all: the loop enters at `ehh = 1` and every homozygosity is then a
genuine rational checked against the threshold before being assigned to
`ehh`, so the loop is only left through an explicit `return` and the value
10 placed after it is unreachable.  For a smaller denominator the value 10
is reachable through the NaN of `0.0/0.0`
(`integrate_nan_returns_ten`). -/
theorem integrate_code_zero_or_one (gm : GMap) (haps : Haps) (pos : List ℤ)
    (direction : Bool) (maxl snp : ℤ) (ref : Char) (nhaps : ℕ) (ihh : FVal)
    (denom : ℚ) (hden : 2 ≤ truncToInt denom) :
    (∀ (c : ℤ) (q : FVal),
        IHS.integrateF gm haps pos direction maxl snp ref nhaps ihh denom = some (c, q) →
        c = 0 ∨ c = 1)
    ∧ (∀ (c : ℤ) (q : FVal) (tr : List MeltEHH.TraceLineF),
        MeltEHH.integrateF gm haps pos direction maxl snp ref nhaps ihh denom = some (c, q, tr) →
        c = 0 ∨ c = 1) := by
  have hden' : r8_choose (truncToInt denom) 2 ≠ 0 := by
    unfold r8_choose
    have h2 : (2 : ℤ).toNat = 2 := rfl
    rw [h2]
    have hge : 2 ≤ (truncToInt denom).toNat := by omega
    exact_mod_cast (Nat.choose_pos hge).ne'
  constructor
  · intro c q h
    exact IHS.integrateF_code gm haps pos direction maxl snp ref nhaps ihh denom hden' c q h
  · intro c q tr h
    rw [MeltEHH.integrateF] at h
    refine MeltEHH.integrateGoF_melt_code gm haps pos direction maxl ref nhaps denom hden' _ 1 _ _ ihh
      (by norm_num) ?_ c q tr h
    cases direction <;> simp <;> omega

/-- Witness for C10 as amended, at a concrete leftward iHS integration with
denominator 4 that terminates by threshold decay with return code 0. -/
theorem integrate_code_zero_or_one_witness :
    (2 ≤ truncToInt 4)
    ∧ IHS.integrateF [] gapHaps gapPos false 4 2 '0' 2 (some 0) 4 = some (0, some (1/600))
    ∧ ((0 : ℤ) = 0 ∨ (0 : ℤ) = 1) :=
  ⟨by decide, by decide,
   (integrate_code_zero_or_one [] gapHaps gapPos false 4 2 '0' 2 (some 0) 4 (by decide)).1
     0 (some (1/600)) (by decide)⟩

/-- C1 (code bug): in the leftward (`direction = false`) branch of the iHS
`integrate`, the physical distance checked against the 10000 bp cutoff and
the 5000 bp correction is computed from `pos[end-1]` and `pos[end]` — the
fixed pair flanking the focal site — instead of the two newest boundary
positions `pos[start]`/`pos[start+1]` used by the adjacent `gDist` call in
the same branch.  On `gapPos`, the leftward integration from focal index 2
extends the window across the 20000 bp gap between `pos[1]` and `pos[2]`
(its newest boundary pair at that step); the claim mandates failing
outright with a nonzero code and no added area, but the embedded code
completes with code 0 and the full unscaled area
`1/1000 + 1/1500 = 1/600`, because the distance it actually inspects is
the fixed 100 bp gap between `pos[2]` and `pos[3]`. -/
theorem iHS_left_gap_check_reads_focal_pair :
    IHS.integrate [] gapHaps gapPos false 4 2 '0' 2 0 4 = some (0, 1/600)
    ∧ |posAt gapPos 1 - posAt gapPos 2| = 20000
    ∧ ((20000:ℤ) > 10000)
    ∧ |posAt gapPos 2 - posAt gapPos 3| = 100 :=
  ⟨by decide, by decide, by decide, by decide⟩

/-! ## The two-point genetic map scenario -/

/-- Lookup in a filled interpolation segment: positions
`i, i + 1, ..., i + n - 1` carry the arithmetic progression starting at
`running` with step `chunk`; all other positions fall through to the
underlying map. -/
theorem fillSeg_lookup :
    ∀ (n : ℕ) (i : ℤ) (running chunk : ℚ) (m : GMap) (x : ℤ),
      (fillSeg n i running chunk m).lookup x =
        if i ≤ x ∧ x < i + (n : ℤ) then some (running + ((x - i : ℤ) : ℚ) * chunk)
        else m.lookup x := by
  intro n
  induction n with
  | zero =>
    intro i r c m x
    rw [fillSeg, if_neg (by push_cast; omega)]
  | succ n ih =>
    intro i r c m x
    rw [fillSeg, ih]
    by_cases hin : i + 1 ≤ x ∧ x < i + 1 + (n : ℤ)
    · rw [if_pos hin, if_pos (by push_cast; omega)]
      congr 1
      push_cast
      ring
    · rw [if_neg hin]
      by_cases hx : x = i
      · subst hx
        rw [if_pos (by push_cast; omega)]
        simp [List.lookup]
      · rw [if_neg (by push_cast; omega)]
        have hbe : (x == i) = false := beq_eq_false_iff_ne.mpr hx
        simp only [List.lookup, hbe]

/-- The genetic map loaded from the two-point file of the C4 scenario:
sequence `chr1`, rows `(cm 0.0, pos 1000)` and `(cm 1.0, pos 2000)`,
queried span 1000-2000. -/
def mapC4 : GMap :=
  loadGeneticMap "chr1".toList 1000 2000
    [⟨"chr1".toList, 0, 1000⟩, ⟨"chr1".toList, 1, 2000⟩]

/-- The loader produces exactly two filled segments: positions 0-999 at the
constant 0 (from the implicit initial `lastpos = 0`), and positions
1000-1999 climbing by 1/1000 cM per base.  Position 2000 itself is never
stored, because each segment's fill loop stops strictly below its endpoint. -/
theorem mapC4_eq : mapC4 = fillSeg 1000 1000 0 (1/1000) (fillSeg 1000 0 0 0 []) := by
  have h : (1000 : ℤ).toNat = 1000 := rfl
  norm_num [mapC4, loadGeneticMap, loadGeneticMapGo, h]

/-- C4 counterexample: the genetic-distance lookup for the pair
`(1999, 2000)` fails (returns no value at all) on the two-point map,
because position 2000 is absent from the loaded map; the claim expects a
successful lookup of approximately 0.01 (and even the idealised
interpolated gap would be 0.001, as `mapC4` stores 0.999 at 1999). -/
theorem geneticMap_endpoint_missing : gDist mapC4 1999 2000 = none := by
  have h2000 : mapC4.lookup 2000 = none := by
    rw [mapC4_eq, fillSeg_lookup, if_neg (by norm_num), fillSeg_lookup, if_neg (by norm_num)]
    rfl
  have h1999 : mapC4.lookup 1999 = some (999/1000) := by
    rw [mapC4_eq, fillSeg_lookup, if_pos (by norm_num)]
    norm_num
  unfold gDist
  rw [h1999, h2000]

/-- C4 as amended: on the two-point map, `distance(1000, 1500)` returns
0.5 by linear interpolation; `distance(1999, 2000)` fails the lookup
(position 2000 is not stored, so the caller falls back to the constant
0.001), and the value stored at 1999 is 0.999 cM, so even the idealised
one-base gap is 0.001 cM, not 0.01. -/
theorem geneticMap_two_point_lookup :
    gDist mapC4 1000 1500 = some (1/2)
    ∧ gDist mapC4 1999 2000 = none
    ∧ mapC4.lookup 1999 = some (999/1000) := by
  have h1000 : mapC4.lookup 1000 = some 0 := by
    rw [mapC4_eq, fillSeg_lookup, if_pos (by norm_num)]
    norm_num
  have h1500 : mapC4.lookup 1500 = some (1/2) := by
    rw [mapC4_eq, fillSeg_lookup, if_pos (by norm_num)]
    norm_num
  have h2000 : mapC4.lookup 2000 = none := by
    rw [mapC4_eq, fillSeg_lookup, if_neg (by norm_num), fillSeg_lookup, if_neg (by norm_num)]
    rfl
  have h1999 : mapC4.lookup 1999 = some (999/1000) := by
    rw [mapC4_eq, fillSeg_lookup, if_pos (by norm_num)]
    norm_num
  refine ⟨?_, ?_, h1999⟩
  · unfold gDist
    rw [h1000, h1500]
    norm_num
  · unfold gDist
    rw [h1999, h2000]

/-! ## Region handling -/

/-- A VCF header consisting of one contig line for `chr1`. -/
def hdrC3 : List Char := "##contig=<ID=chr1,length=1000>".toList

/-- C3 counterexample: when the requested region names a contig absent from
the header and the external `setRegion` call fails, the iHS driver exits
with code 0 (a warning followed by `exit(0)`), not the fatal code 1 the
claim requires of every driver. -/
theorem region_exit_counterexample :
    Region.regionExists hdrC3 "chr9".toList = false
    ∧ Region.iHSRegionExit "chr9".toList false = some 0
    ∧ (0 : ℕ) ≠ 1 :=
  ⟨by decide, by decide, by decide⟩

/-- C3 as amended: only hapLRT implements the two-way distinction — on a
failed `setRegion` it exits 0 when the region's contig appears in the
header (successful no-op) and 1 otherwise (fatal); iHS exits 0 on every
failed `setRegion`, even for an unknown contig; meltEHH exits 1 on every
failed `setRegion`, even for a known contig with zero variants. -/
theorem region_exit_policy (header region : List Char)
    (hna : region ≠ ['N', 'A']) (hne : region ≠ []) :
    (Region.regionExists header region = true →
        Region.hapLrtRegionExit header region false = some 0)
    ∧ (Region.regionExists header region = false →
        Region.hapLrtRegionExit header region false = some 1)
    ∧ Region.iHSRegionExit region false = some 0
    ∧ Region.meltEHHRegionExit region false = some 1 := by
  refine ⟨fun h => ?_, fun h => ?_, ?_, ?_⟩
  · simp [Region.hapLrtRegionExit, hna, h]
  · simp [Region.hapLrtRegionExit, hna, h]
  · simp [Region.iHSRegionExit, hne]
  · simp [Region.meltEHHRegionExit, hne]

/-- Witness for the amended C3 at the single-contig header, a region on the
known contig `chr1`, and a region on the unknown contig `chr9`. -/
theorem region_exit_policy_witness :
    ("chr1:1-5".toList ≠ "NA".toList)
    ∧ ("chr1:1-5".toList ≠ ([] : List Char))
    ∧ Region.regionExists hdrC3 "chr1:1-5".toList = true
    ∧ Region.hapLrtRegionExit hdrC3 "chr1:1-5".toList false = some 0
    ∧ Region.iHSRegionExit "chr1:1-5".toList false = some 0
    ∧ Region.meltEHHRegionExit "chr1:1-5".toList false = some 1 := by
  have h := region_exit_policy hdrC3 "chr1:1-5".toList (by decide) (by decide)
  exact ⟨by decide, by decide, by decide, h.1 (by decide), h.2.2.1, h.2.2.2⟩

/-! ## The meltEHH trace -/

/-- Two target samples of length 3: all four copies carry `0` at the focal
column 0, the four copies fall into two pairs on columns 0-1, and are
pairwise distinct over columns 0-2. -/
def exHaps9 : Haps := [("001".toList, "000".toList), ("010".toList, "011".toList)]

/-- Marker positions for the meltEHH trace example. -/
def exPos9 : List ℤ := [100, 200, 300]

/-- C9 counterexample: in the rightward reference integration on `exHaps9`,
the second trace line is emitted by the extension step that moves the
window end to index 2 (printed boundary position 300), yet it carries the
EHH value 1 — the previous window's homozygosity — while the window
reached by that step has homozygosity 1/3.  The line therefore does not
contain "the current EHH value at that extension step".  The third
extension step, whose window homozygosity is 0 (at or below the 0.01
threshold), emits no line at all, so neither does every extension step
produce a line. -/
theorem meltEHH_trace_lag_counterexample :
    MeltEHH.integrate [] exHaps9 exPos9 true 3 0 '0' 2 0 4
      = some (0, 1/600, [(200, 1, '0', true), (300, 1, '0', true)])
    ∧ calcEhh exHaps9 0 2 '0' 2 4 true = some (1/3)
    ∧ ((1 : ℚ) ≠ 1/3)
    ∧ calcEhh exHaps9 0 3 '0' 2 4 true = some 0 :=
  ⟨by decide, by decide, by decide, by decide⟩

/-- When the meltEHH loop produces a non-empty trace, the first line
carries the incoming EHH accumulator value: every emitted line prints the
EHH of the window from before its extension step. -/
theorem MeltEHH.integrateGo_head (gm : GMap) (haps : Haps) (pos : List ℤ)
    (direction : Bool) (maxl : ℤ) (ref : Char) (nhaps : ℕ) (denom : ℚ)
    (fuel : ℕ) (ehh : ℚ) (s e : ℤ) (ihh : ℚ) (c : ℤ) (q : ℚ)
    (ls : List MeltEHH.TraceLine)
    (h : MeltEHH.integrateGo gm haps pos direction maxl ref nhaps denom fuel ehh s e ihh
          = some (c, q, ls))
    (hne : ls ≠ []) :
    (ls.headD (0, 0, ' ', false)).2.1 = ehh := by
  cases fuel with
  | zero =>
    rw [MeltEHH.integrateGo] at h
    injection h with h1
    injection h1 with h2 h3
    injection h3 with h4 h5
    exact absurd h5.symm hne
  | succ n =>
    rw [MeltEHH.integrateGo] at h
    by_cases hg : ¬ ehh > 1/100
    · rw [if_pos hg] at h
      injection h with h1
      injection h1 with h2 h3
      injection h3 with h4 h5
      exact absurd h5.symm hne
    rw [if_neg hg] at h
    by_cases hs0 : nextS direction s < 0
    · rw [if_pos hs0] at h
      injection h with h1
      injection h1 with h2 h3
      injection h3 with h4 h5
      exact absurd h5.symm hne
    rw [if_neg hs0] at h
    by_cases he0 : nextE direction e > maxl
    · rw [if_pos he0] at h
      injection h with h1
      injection h1 with h2 h3
      injection h3 with h4 h5
      exact absurd h5.symm hne
    rw [if_neg he0] at h
    rcases hc : calcEhh haps (nextS direction s) (nextE direction e) ref nhaps denom direction with _ | ehhRT
    · rw [hc] at h
      exact Option.noConfusion h
    rw [hc] at h
    dsimp only at h
    by_cases hRT : ehhRT ≤ 1/100
    · rw [if_pos hRT] at h
      injection h with h1
      injection h1 with h2 h3
      injection h3 with h4 h5
      exact absurd h5.symm hne
    rw [if_neg hRT] at h
    rcases hrec : MeltEHH.integrateGo gm haps pos direction maxl ref nhaps denom n ehhRT
        (nextS direction s) (nextE direction e)
        (ihh + (ehh + ehhRT) / 2 *
          ((if direction then
              (gDist gm (posAt pos (nextE direction e - 1)) (posAt pos (nextE direction e))).getD (1/1000)
            else
              (gDist gm (posAt pos (nextS direction s + 1)) (posAt pos (nextS direction s))).getD (1/1000)))) with
      _ | res
    · rw [hrec] at h
      exact Option.noConfusion h
    · rw [hrec] at h
      obtain ⟨c2, q2, ls2⟩ := res
      have hls : ((if direction then (posAt pos (nextE direction e), ehh, ref, direction)
            else (posAt pos (nextS direction s), ehh, ref, direction)) : MeltEHH.TraceLine) :: ls2 = ls := by
        injection h with h1
        injection h1 with h2 h3
        injection h3 with h4 h5
      rw [← hls]
      cases direction <;> rfl

/-- Every line of a meltEHH trace carries an EHH value strictly above the
0.01 decay threshold: the value that first decays to or below the
threshold is never printed. -/
theorem MeltEHH.integrateGo_lines (gm : GMap) (haps : Haps) (pos : List ℤ)
    (direction : Bool) (maxl : ℤ) (ref : Char) (nhaps : ℕ) (denom : ℚ) :
    ∀ (fuel : ℕ) (ehh : ℚ) (s e : ℤ) (ihh : ℚ) (c : ℤ) (q : ℚ)
      (ls : List MeltEHH.TraceLine),
      MeltEHH.integrateGo gm haps pos direction maxl ref nhaps denom fuel ehh s e ihh
        = some (c, q, ls) →
      ∀ l ∈ ls, 1/100 < l.2.1 := by
  intro fuel
  induction fuel with
  | zero =>
    intro ehh s e ihh c q ls h
    rw [MeltEHH.integrateGo] at h
    injection h with h1
    injection h1 with h2 h3
    injection h3 with h4 h5
    rw [← h5]
    intro l hl
    exact absurd hl (List.not_mem_nil l)
  | succ n ih =>
    intro ehh s e ihh c q ls h
    rw [MeltEHH.integrateGo] at h
    by_cases hg : ¬ ehh > 1/100
    · rw [if_pos hg] at h
      injection h with h1
      injection h1 with h2 h3
      injection h3 with h4 h5
      rw [← h5]
      intro l hl
      exact absurd hl (List.not_mem_nil l)
    rw [if_neg hg] at h
    by_cases hs0 : nextS direction s < 0
    · rw [if_pos hs0] at h
      injection h with h1
      injection h1 with h2 h3
      injection h3 with h4 h5
      rw [← h5]
      intro l hl
      exact absurd hl (List.not_mem_nil l)
    rw [if_neg hs0] at h
    by_cases he0 : nextE direction e > maxl
    · rw [if_pos he0] at h
      injection h with h1
      injection h1 with h2 h3
      injection h3 with h4 h5
      rw [← h5]
      intro l hl
      exact absurd hl (List.not_mem_nil l)
    rw [if_neg he0] at h
    rcases hc : calcEhh haps (nextS direction s) (nextE direction e) ref nhaps denom direction with _ | ehhRT
    · rw [hc] at h
      exact Option.noConfusion h
    rw [hc] at h
    dsimp only at h
    by_cases hRT : ehhRT ≤ 1/100
    · rw [if_pos hRT] at h
      injection h with h1
      injection h1 with h2 h3
      injection h3 with h4 h5
      rw [← h5]
      intro l hl
      exact absurd hl (List.not_mem_nil l)
    rw [if_neg hRT] at h
    rcases hrec : MeltEHH.integrateGo gm haps pos direction maxl ref nhaps denom n ehhRT
        (nextS direction s) (nextE direction e)
        (ihh + (ehh + ehhRT) / 2 *
          ((if direction then
              (gDist gm (posAt pos (nextE direction e - 1)) (posAt pos (nextE direction e))).getD (1/1000)
            else
              (gDist gm (posAt pos (nextS direction s + 1)) (posAt pos (nextS direction s))).getD (1/1000)))) with
      _ | res
    · rw [hrec] at h
      exact Option.noConfusion h
    · rw [hrec] at h
      obtain ⟨c2, q2, ls2⟩ := res
      have hls : ((if direction then (posAt pos (nextE direction e), ehh, ref, direction)
            else (posAt pos (nextS direction s), ehh, ref, direction)) : MeltEHH.TraceLine) :: ls2 = ls := by
        injection h with h1
        injection h1 with h2 h3
        injection h3 with h4 h5
      rw [← hls]
      intro l hl
      rcases List.mem_cons.mp hl with hl0 | hl2
      · subst hl0
        have : ¬ ehh ≤ 1/100 := fun hle => hg (by push_neg; exact hle)
        cases direction <;> simpa using lt_of_not_le this
      · exact ih ehhRT (nextS direction s) (nextE direction e) _ c2 q2 ls2 hrec l hl2

/-- C9 as amended: for the caller-specified focal position, meltEHH first
emits the anchor line `(position, 1, "0", "0")`, then — with no distance
cutoff or gap correction applied — the trace lines of the four
integrations in order (reference rightward, reference leftward, alternate
rightward, alternate leftward) and nothing afterwards.  Each emitted line
carries the new boundary position together with the EHH value from before
that extension step (so the first line of each integration shows 1), and
every printed EHH value lies strictly above the 0.01 decay threshold:
extension steps that terminate the integration (decay to or below the
threshold, or running off the matrix) emit no line. -/
theorem meltEHH_trace_structure (gm : GMap) (haps : Haps) (nhaps : ℕ) (pos : List ℤ)
    (maxl snp : ℤ) (d1 d2 : ℚ) (c1 c2 c3 c4 : ℤ) (h1 q2 h3 q4 : ℚ)
    (t1 t2 t3 t4 : List MeltEHH.TraceLine)
    (hd1 : d1 = (((countHaps nhaps haps snp (snp + 1)).lookup ['0']).getD 0 : ℕ))
    (hd2 : d2 = (((countHaps nhaps haps snp (snp + 1)).lookup ['1']).getD 0 : ℕ))
    (H1 : MeltEHH.integrate gm haps pos true maxl snp '0' nhaps 0 d1 = some (c1, h1, t1))
    (H2 : MeltEHH.integrate gm haps pos false maxl snp '0' nhaps h1 d1 = some (c2, q2, t2))
    (H3 : MeltEHH.integrate gm haps pos true maxl snp '1' nhaps 0 d2 = some (c3, h3, t3))
    (H4 : MeltEHH.integrate gm haps pos false maxl snp '1' nhaps h3 d2 = some (c4, q4, t4)) :
    MeltEHH.site gm haps nhaps pos maxl snp
      = some ((posAt pos snp, 1, '0', false) :: (t1 ++ t2 ++ t3 ++ t4))
    ∧ (∀ (direction : Bool) (ref : Char) (ihh0 denom : ℚ) (c : ℤ) (q : ℚ)
         (ls : List MeltEHH.TraceLine),
        MeltEHH.integrate gm haps pos direction maxl snp ref nhaps ihh0 denom
            = some (c, q, ls) →
        (ls ≠ [] → (ls.headD (0, 0, ' ', false)).2.1 = 1)
        ∧ ∀ l ∈ ls, 1/100 < l.2.1) := by
  constructor
  · subst hd1 hd2
    unfold MeltEHH.site
    dsimp only
    rw [H1]
    dsimp only
    rw [H2]
    dsimp only
    rw [H3]
    dsimp only
    rw [H4]
  · intro direction ref ihh0 denom c q ls h
    rw [MeltEHH.integrate] at h
    constructor
    · intro hne
      exact MeltEHH.integrateGo_head gm haps pos direction maxl ref nhaps denom _ 1 _ _ ihh0
        c q ls h hne
    · exact MeltEHH.integrateGo_lines gm haps pos direction maxl ref nhaps denom _ 1 _ _ ihh0
        c q ls h

/-- Witness for the amended C9 on the concrete `exHaps9` matrix. -/
theorem meltEHH_trace_structure_witness :
    MeltEHH.site [] exHaps9 2 exPos9 3 0
      = some ((100, 1, '0', false) ::
          ([(200, 1, '0', true), (300, 1, '0', true)] ++ [(100, 1, '0', false)] ++ [] ++ []))
    ∧ (([(200, 1, '0', true), (300, 1, '0', true)] : List MeltEHH.TraceLine) ≠ [] →
        (([(200, 1, '0', true), (300, 1, '0', true)] : List MeltEHH.TraceLine).headD
            (0, 0, ' ', false)).2.1 = 1) := by
  have h := meltEHH_trace_structure [] exHaps9 2 exPos9 3 0 4 0 0 1 0 0 (1/600) (1/375) 0 0
    [(200, 1, '0', true), (300, 1, '0', true)] [(100, 1, '0', false)] [] []
    (by decide) (by decide) (by decide) (by decide) (by decide) (by decide)
  exact ⟨h.1, (h.2 true '0' 0 4 0 (1/600) [(200, 1, '0', true), (300, 1, '0', true)] (by decide)).1⟩

/-! ## The hapLRT block-length policy -/

/-- Modelled from the spec: the number of consecutive matching positions
walking left from the focal index, as described by claim C2 (extension in
one direction continuing until its own mismatch or the matrix boundary). -/
def specLeftRun (c a : List Char) : ℕ → ℕ
  | 0 => 0
  | i + 1 => if c.getD i ' ' = a.getD i ' ' then specLeftRun c a i + 1 else 0

/-- Modelled from the spec: the number of consecutive matching positions
walking right from position `i`, staying below `smax` (fuelled by the
remaining width). -/
def specRightRunGo (c a : List Char) (smax : ℕ) : ℕ → ℕ → ℕ
  | 0, _ => 0
  | f + 1, i =>
    if i + 1 < smax ∧ c.getD (i + 1) ' ' = a.getD (i + 1) ' '
    then specRightRunGo c a smax f (i + 1) + 1 else 0

/-- Modelled from the spec: consecutive matches to the right of the focal
index. -/
def specRightRun (c a : List Char) (smax core : ℕ) : ℕ :=
  specRightRunGo c a smax smax core

/-- Modelled from the spec: the block length claim C2 describes — if the
focal alleles match, one for the focal position plus the independent
left and right runs, each stopping only at its own mismatch or at the
matrix boundary. -/
def specPairLen (c a : List Char) (core smax : ℕ) : ℕ :=
  if c.getD core ' ' ≠ a.getD core ' ' then 0
  else 1 + specLeftRun c a core + specRightRun c a smax core

/-- C2 counterexample: comparing `0111` and `1111` at focal index 1, the
code credits block length 1 — the immediate left mismatch `break`s the
whole extension loop — whereas the claimed policy (the right direction
continues to the boundary) yields 3. -/
theorem findLengths_counterexample :
    HapLrt.pairLen "0111".toList "1111".toList 1 4 = 1
    ∧ specPairLen "0111".toList "1111".toList 1 4 = 3
    ∧ (1 : ℕ) ≠ 3 :=
  ⟨by decide, by decide, by decide⟩

/-- The guarded max-update of one `lengths` entry never decreases any
entry. -/
theorem HapLrt.condSet_getD_le (L : List ℕ) (m v k : ℕ) :
    L.getD k 0 ≤ (if L.getD m 0 < v then L.set m v else L).getD k 0 := by
  by_cases hg : L.getD m 0 < v
  · rw [if_pos hg, List.getD_eq_getElem?_getD, List.getD_eq_getElem?_getD, List.getElem?_set]
    by_cases hmk : m = k
    · subst hmk
      rw [if_pos rfl]
      by_cases hlen : m < L.length
      · rw [if_pos hlen]
        rw [List.getD_eq_getElem?_getD] at hg
        exact le_of_lt (lt_of_le_of_lt (le_refl _) hg)
      · rw [if_neg hlen]
        rw [List.getElem?_eq_none (by omega)]
    · rw [if_neg hmk]
  · rw [if_neg hg]

/-- The guarded max-update leaves every other entry unchanged. -/
theorem HapLrt.condSet_getD_ne (L : List ℕ) (m v k : ℕ) (hmk : m ≠ k) :
    (if L.getD m 0 < v then L.set m v else L).getD k 0 = L.getD k 0 := by
  by_cases hg : L.getD m 0 < v
  · rw [if_pos hg, List.getD_eq_getElem?_getD, List.getD_eq_getElem?_getD,
      List.getElem?_set, if_neg hmk]
  · rw [if_neg hg]

/-- After the guarded max-update, the touched entry is at least the new
value (when the index is in range). -/
theorem HapLrt.condSet_getD_ge (L : List ℕ) (m v : ℕ) (hm : m < L.length) :
    v ≤ (if L.getD m 0 < v then L.set m v else L).getD m 0 := by
  by_cases hg : L.getD m 0 < v
  · rw [if_pos hg, List.getD_eq_getElem?_getD, List.getElem?_set, if_pos rfl, if_pos hm]
    exact le_refl _
  · rw [if_neg hg]
    omega

/-- The guarded max-update preserves the array length. -/
theorem HapLrt.condSet_length (L : List ℕ) (m v : ℕ) :
    (if L.getD m 0 < v then L.set m v else L).length = L.length := by
  by_cases hg : L.getD m 0 < v
  · rw [if_pos hg, List.length_set]
  · rw [if_neg hg]

/-- `updatePair` never decreases any entry. -/
theorem HapLrt.updatePair_getD_le (haps : Haps) (group : List ℕ) (core smax i : ℕ)
    (L : List ℕ) (j k : ℕ) :
    L.getD k 0 ≤ (HapLrt.updatePair haps group core smax i L j).getD k 0 := by
  unfold HapLrt.updatePair
  dsimp only
  exact le_trans (HapLrt.condSet_getD_le L i _ k) (HapLrt.condSet_getD_le _ j _ k)

/-- `updatePair` preserves the array length. -/
theorem HapLrt.updatePair_length (haps : Haps) (group : List ℕ) (core smax i : ℕ)
    (L : List ℕ) (j : ℕ) :
    (HapLrt.updatePair haps group core smax i L j).length = L.length := by
  unfold HapLrt.updatePair
  dsimp only
  rw [HapLrt.condSet_length, HapLrt.condSet_length]

/-- After `updatePair` on the pair `(i, j)`, both entries are at least the
pair's block length. -/
theorem HapLrt.updatePair_hits (haps : Haps) (group : List ℕ) (core smax i : ℕ)
    (L : List ℕ) (j : ℕ) (hi : i < L.length) (hj : j < L.length) (hij : i ≠ j) :
    HapLrt.pairLen (HapLrt.hapAt haps group i) (HapLrt.hapAt haps group j) core smax
      ≤ (HapLrt.updatePair haps group core smax i L j).getD i 0
    ∧ HapLrt.pairLen (HapLrt.hapAt haps group i) (HapLrt.hapAt haps group j) core smax
      ≤ (HapLrt.updatePair haps group core smax i L j).getD j 0 := by
  unfold HapLrt.updatePair
  dsimp only
  constructor
  · rw [HapLrt.condSet_getD_ne _ j _ i (fun h => hij h.symm)]
    exact HapLrt.condSet_getD_ge L i _ hi
  · refine HapLrt.condSet_getD_ge _ j _ ?_
    rw [HapLrt.condSet_length]
    exact hj

/-- A fold of length-preserving steps preserves the length. -/
theorem HapLrt.foldl_length_inv (F : List ℕ → ℕ → List ℕ)
    (hF : ∀ L i, (F L i).length = L.length) :
    ∀ (is : List ℕ) (L : List ℕ), (is.foldl F L).length = L.length := by
  intro is
  induction is with
  | nil => intro L; rfl
  | cons i is ih =>
    intro L
    rw [List.foldl_cons, ih, hF]

/-- A fold of entrywise non-decreasing steps is entrywise non-decreasing. -/
theorem HapLrt.foldl_getD_mono (F : List ℕ → ℕ → List ℕ)
    (hF : ∀ (L : List ℕ) (i k : ℕ), L.getD k 0 ≤ (F L i).getD k 0) :
    ∀ (is : List ℕ) (L : List ℕ) (k : ℕ), L.getD k 0 ≤ (is.foldl F L).getD k 0 := by
  intro is
  induction is with
  | nil => intro L k; exact le_refl _
  | cons i is ih =>
    intro L k
    exact le_trans (hF L i k) (ih (F L i) k)

/-- Every pair's block length is credited to both of its haplotypes: the
`findLengths` entries of `i` and `j` are at least `pairLen` of the pair. -/
theorem HapLrt.findLengths_credits (haps : Haps) (group : List ℕ) (core i j : ℕ)
    (hij : i < j) (hj : j < 2 * group.length) :
    HapLrt.pairLen (HapLrt.hapAt haps group i) (HapLrt.hapAt haps group j) core
        ((haps.headD ([], [])).1.length)
      ≤ (HapLrt.findLengths haps group core).getD i 0
    ∧ HapLrt.pairLen (HapLrt.hapAt haps group i) (HapLrt.hapAt haps group j) core
        ((haps.headD ([], [])).1.length)
      ≤ (HapLrt.findLengths haps group core).getD j 0 := by
  unfold HapLrt.findLengths
  dsimp only
  set smax := (haps.headD ([], [])).1.length with hsmax
  set g2 := 2 * group.length with hg2
  set inner := fun (L : List ℕ) (i : ℕ) =>
    ((List.range g2).drop (i + 1)).foldl (HapLrt.updatePair haps group core smax i) L
    with hinner
  have hinner_len : ∀ L i, (inner L i).length = L.length := by
    intro L i
    rw [hinner]
    exact HapLrt.foldl_length_inv _ (fun L j => HapLrt.updatePair_length haps group core smax i L j) _ L
  have hinner_mono : ∀ (L : List ℕ) (i k : ℕ), L.getD k 0 ≤ (inner L i).getD k 0 := by
    intro L i k
    rw [hinner]
    exact HapLrt.foldl_getD_mono _ (fun L j k => HapLrt.updatePair_getD_le haps group core smax i L j k) _ L k
  -- split the outer fold at i
  have hiin : i ∈ List.range g2 := List.mem_range.mpr (by omega)
  obtain ⟨o1, o2, ho⟩ := List.append_of_mem hiin
  rw [ho, List.foldl_append, List.foldl_cons]
  set L0 := o1.foldl inner (List.replicate g2 0) with hL0
  have hL0len : L0.length = g2 := by
    rw [hL0, HapLrt.foldl_length_inv inner hinner_len, List.length_replicate]
  -- split the inner fold at j
  have hjin : j ∈ (List.range g2).drop (i + 1) := by
    have hg : ((List.range g2).drop (i + 1))[j - (i + 1)]? = some j := by
      rw [List.getElem?_drop, List.getElem?_range (by omega)]
      congr 1
      omega
    exact List.getElem?_mem hg
  obtain ⟨l1, l2, hl⟩ := List.append_of_mem hjin
  have hstep : inner L0 i = l2.foldl (HapLrt.updatePair haps group core smax i)
      (HapLrt.updatePair haps group core smax i
        (l1.foldl (HapLrt.updatePair haps group core smax i) L0) j) := by
    rw [hinner]
    dsimp only
    rw [hl, List.foldl_append, List.foldl_cons]
  set Lb := l1.foldl (HapLrt.updatePair haps group core smax i) L0 with hLb
  have hLblen : Lb.length = g2 := by
    rw [hLb, HapLrt.foldl_length_inv _ (fun L j => HapLrt.updatePair_length haps group core smax i L j), hL0len]
  have hhits := HapLrt.updatePair_hits haps group core smax i Lb j
    (by omega) (by omega) (by omega)
  constructor
  · refine le_trans hhits.1 ?_
    refine le_trans ?_ (HapLrt.foldl_getD_mono inner hinner_mono o2 _ i)
    rw [hstep]
    exact HapLrt.foldl_getD_mono _ (fun L j k => HapLrt.updatePair_getD_le haps group core smax i L j k) l2 _ i
  · refine le_trans hhits.2 ?_
    refine le_trans ?_ (HapLrt.foldl_getD_mono inner hinner_mono o2 _ j)
    rw [hstep]
    exact HapLrt.foldl_getD_mono _ (fun L j k => HapLrt.updatePair_getD_le haps group core smax i L j k) l2 _ j

/-- C2 as amended: for every pair of haplotypes compared by `findLengths`,
if the focal alleles differ the pair's credited length is 0; otherwise
extension proceeds in rounds stepping left then right, and the first
mismatch on either side stops extension entirely — an immediate left
mismatch yields length 1 no matter how far the right side would match,
and a right mismatch in the same round discards that round's left match —
and the resulting pair length is credited to both haplotypes (each of
their `lengths` entries is at least the pair's block length). -/
theorem findLengths_block_policy (c a : List Char) (core smax : ℕ) :
    (c.getD core ' ' ≠ a.getD core ' ' → HapLrt.pairLen c a core smax = 0)
    ∧ (c.getD core ' ' = a.getD core ' ' → 0 < core → core < smax →
        c.getD (core - 1) ' ' ≠ a.getD (core - 1) ' ' →
        HapLrt.pairLen c a core smax = 1)
    ∧ (c.getD core ' ' = a.getD core ' ' → 0 < core → core + 1 < smax →
        c.getD (core - 1) ' ' = a.getD (core - 1) ' ' →
        c.getD (core + 1) ' ' ≠ a.getD (core + 1) ' ' →
        HapLrt.pairLen c a core smax = 1)
    ∧ (∀ (haps : Haps) (group : List ℕ) (i j : ℕ), i < j → j < 2 * group.length →
        HapLrt.pairLen (HapLrt.hapAt haps group i) (HapLrt.hapAt haps group j) core
            ((haps.headD ([], [])).1.length)
          ≤ (HapLrt.findLengths haps group core).getD i 0
        ∧ HapLrt.pairLen (HapLrt.hapAt haps group i) (HapLrt.hapAt haps group j) core
            ((haps.headD ([], [])).1.length)
          ≤ (HapLrt.findLengths haps group core).getD j 0) := by
  refine ⟨?_, ?_, ?_, ?_⟩
  · intro hne
    rw [HapLrt.pairLen, if_pos hne]
  · intro hcm hc0 hcs hlm
    rw [HapLrt.pairLen, if_neg (not_not_intro hcm), HapLrt.pairLenGo]
    dsimp only
    rw [if_neg (not_not_intro (by omega : 1 < smax))]
    rw [if_pos hc0]
    rw [if_pos ⟨hc0, hlm⟩]
  · intro hcm hc0 hcs1 hlmatch hrm
    rw [HapLrt.pairLen, if_neg (not_not_intro hcm), HapLrt.pairLenGo]
    dsimp only
    rw [if_neg (not_not_intro (by omega : 1 < smax))]
    rw [if_pos hc0]
    rw [if_neg (fun hb => hb.2 hlmatch)]
    rw [if_pos (by omega : core < smax - 1)]
    rw [if_pos ⟨by omega, hrm⟩]
  · intro haps group i j hij hj
    exact HapLrt.findLengths_credits haps group core i j hij hj

/-- Witness for the amended C2: on the pair `0111` / `0101` at focal
index 1 the right-neighbour mismatch discards the matching left step and
yields length 1, and the length is credited to both entries. -/
theorem findLengths_block_policy_witness :
    HapLrt.pairLen "0111".toList "0101".toList 1 4 = 1
    ∧ HapLrt.pairLen (HapLrt.hapAt [("0111".toList, "0101".toList)] [0] 0)
        (HapLrt.hapAt [("0111".toList, "0101".toList)] [0] 1) 1
        (([("0111".toList, "0101".toList)] : Haps).headD ([], [])).1.length
      ≤ (HapLrt.findLengths [("0111".toList, "0101".toList)] [0] 1).getD 0 0 := by
  have h := findLengths_block_policy "0111".toList "0101".toList 1 4
  exact ⟨h.2.2.1 (by decide) (by decide) (by decide) (by decide) (by decide),
    (h.2.2.2 [("0111".toList, "0101".toList)] [0] 0 1 (by decide) (by decide)).1⟩

/-! ## The hapLRT statistic -/

/-- Four samples whose third and fourth duplicate the first and second:
with target group `[0, 1]` and background group `[2, 3]`, both groups see
the identical haplotype multiset, so all block-length arrays coincide. -/
def tieHaps : Haps :=
  [("000".toList, "001".toList), ("011".toList, "010".toList),
   ("000".toList, "001".toList), ("011".toList, "010".toList)]

/-- Positions for the tie scenario. -/
def tiePos : List ℤ := [10, 20, 30]

/-- Evaluation of the embedded hapLRT per-site computation on the tie
input: both group means are 2, the likelihood ratio is exactly 0, the
site is emitted, and the sign column is 1. -/
theorem hapLrt_site_tie (chi : ℝ → ℝ → ℝ) :
    HapLrt.site chi tieHaps [0, 1] [2, 3] tiePos 0
      = some ⟨10, 2, 2, 1 - chi 0 2, 1⟩ := by
  have hT : HapLrt.findLengths tieHaps [0, 1] 0 = [2, 2, 2, 2] := by decide
  have hB : HapLrt.findLengths tieHaps [2, 3] 0 = [2, 2, 2, 2] := by decide
  have hmean : HapLrt.mean [2, 2, 2, 2] = 2 := by decide
  have ham : HapLrt.mean ([2, 2, 2, 2] ++ [2, 2, 2, 2]) = 2 := by decide
  have hpos : tiePos.getD 0 0 = 10 := by decide
  unfold HapLrt.site
  dsimp only
  rw [hT, hB, hmean, ham, hpos]
  rw [sub_self, mul_zero]
  rw [if_neg (lt_irrefl (0 : ℝ))]
  rw [if_neg (lt_irrefl (2 : ℚ))]

/-- C5 counterexample: on the tie input the site is emitted (the ratio
statistic is exactly 0, which is not negative), the target mean equals the
background mean (so the target mean is not strictly greater), and the
emitted sign is 1 rather than the -1 the claim requires for this case. -/
theorem hapLrt_sign_tie_counterexample :
    ∃ r : HapLrt.HLRow,
      HapLrt.site (fun _ _ => 0) tieHaps [0, 1] [2, 3] tiePos 0 = some r
      ∧ ¬ r.tm > r.bm ∧ r.dir ≠ -1 := by
  refine ⟨⟨10, 2, 2, 1 - (fun _ _ => (0 : ℝ)) 0 2, 1⟩, hapLrt_site_tie (fun _ _ => 0), ?_, ?_⟩
  · dsimp only
    exact lt_irrefl 2
  · dsimp only
    norm_num

/-- C5 as amended: the sign column of every emitted hapLRT row is -1
exactly when the mean target length is strictly smaller than the mean
background length, and 1 otherwise — in particular a tie yields 1. -/
theorem hapLrt_sign_policy (chi : ℝ → ℝ → ℝ) (haps : Haps)
    (target background : List ℕ) (pos : List ℤ) (snp : ℕ) (r : HapLrt.HLRow)
    (h : HapLrt.site chi haps target background pos snp = some r) :
    (r.dir = -1 ↔ r.tm < r.bm) ∧ (r.dir = 1 ↔ ¬ r.tm < r.bm) := by
  unfold HapLrt.site at h
  dsimp only at h
  split at h
  · exact Option.noConfusion h
  · injection h with h1
    subst h1
    dsimp only
    by_cases h2 : HapLrt.mean (HapLrt.findLengths haps target snp)
        < HapLrt.mean (HapLrt.findLengths haps background snp)
    · rw [if_pos h2]
      constructor
      · exact ⟨fun _ => h2, fun _ => rfl⟩
      · constructor
        · intro h3
          exact absurd h3 (by norm_num)
        · intro h3
          exact absurd h2 h3
    · rw [if_neg h2]
      constructor
      · constructor
        · intro h3
          exact absurd h3 (by norm_num)
        · intro h3
          exact absurd h3 h2
      · exact ⟨fun _ => h2, fun _ => rfl⟩

/-- Witness for the amended C5 on the tie input. -/
theorem hapLrt_sign_policy_witness :
    ((1 : ℚ) = -1 ↔ (2 : ℚ) < 2) ∧ ((1 : ℚ) = 1 ↔ ¬ (2 : ℚ) < 2) :=
  hapLrt_sign_policy (fun _ _ => 0) tieHaps [0, 1] [2, 3] tiePos 0
    ⟨10, 2, 2, 1 - (fun _ _ => (0 : ℝ)) 0 2, 1⟩ (hapLrt_site_tie (fun _ _ => 0))

/-- The likelihood-ratio statistic of claim C6, written directly from its
description: twice the difference between the alternative log-likelihood
(each group's exponential log-likelihood under its own sample mean) and
the null log-likelihood (both groups under the pooled mean). -/
noncomputable def HapLrt.lStat (haps : Haps) (target background : List ℕ) (snp : ℕ) : ℝ :=
  2 * ((HapLrt.totalLL (HapLrt.findLengths haps target snp)
          (HapLrt.mean (HapLrt.findLengths haps target snp))
        + HapLrt.totalLL (HapLrt.findLengths haps background snp)
          (HapLrt.mean (HapLrt.findLengths haps background snp)))
      - (HapLrt.totalLL (HapLrt.findLengths haps target snp)
          (HapLrt.mean (HapLrt.findLengths haps target snp
            ++ HapLrt.findLengths haps background snp))
        + HapLrt.totalLL (HapLrt.findLengths haps background snp)
          (HapLrt.mean (HapLrt.findLengths haps target snp
            ++ HapLrt.findLengths haps background snp))))

/-- C6: the per-site hapLRT computation skips the site (no output row)
exactly when `l = 2*(Alt - Null)` is negative, where Alt sums the two
groups' exponential log-likelihoods under their separate sample means and
Null sums them under the pooled mean; every emitted row evaluates the
chi-square tail through `chi` at degrees of freedom fixed to the literal
2, reports the column `1 - p`, and carries the group means. -/
theorem hapLrt_statistic_formula (chi : ℝ → ℝ → ℝ) (haps : Haps)
    (target background : List ℕ) (pos : List ℤ) (snp : ℕ) :
    (HapLrt.site chi haps target background pos snp = none
      ↔ HapLrt.lStat haps target background snp < 0)
    ∧ ∀ r : HapLrt.HLRow,
        HapLrt.site chi haps target background pos snp = some r →
        r.pcol = 1 - chi (HapLrt.lStat haps target background snp) 2
        ∧ r.pos = pos.getD snp 0
        ∧ r.tm = HapLrt.mean (HapLrt.findLengths haps target snp)
        ∧ r.bm = HapLrt.mean (HapLrt.findLengths haps background snp) := by
  constructor
  · unfold HapLrt.site HapLrt.lStat
    dsimp only
    split
    case isTrue hcond => simp [hcond]
    case isFalse hcond => simp [hcond]
  · intro r h
    unfold HapLrt.site at h
    unfold HapLrt.lStat
    dsimp only at h
    split at h
    · exact Option.noConfusion h
    · injection h with h1
      subst h1
      exact ⟨rfl, rfl, rfl, rfl⟩

/-- Witness for C6 on the tie input with the constant-zero chi stub. -/
theorem hapLrt_statistic_formula_witness :
    (1 - (fun _ _ => (0 : ℝ)) 0 2 : ℝ)
        = 1 - (fun _ _ => (0 : ℝ)) (HapLrt.lStat tieHaps [0, 1] [2, 3] 0) 2
    ∧ (10 : ℤ) = tiePos.getD 0 0
    ∧ (2 : ℚ) = HapLrt.mean (HapLrt.findLengths tieHaps [0, 1] 0)
    ∧ (2 : ℚ) = HapLrt.mean (HapLrt.findLengths tieHaps [2, 3] 0) :=
  (hapLrt_statistic_formula (fun _ _ => 0) tieHaps [0, 1] [2, 3] tiePos 0).2
    ⟨10, 2, 2, 1 - (fun _ _ => (0 : ℝ)) 0 2, 1⟩ (hapLrt_site_tie (fun _ _ => 0))

/-! ## The iHS emission policy -/

/-- Two target samples of length 2 used for the iHS emission scenario:
both alleles occur twice at each column, and the two window extensions in
each direction run off the matrix, exercising the failure counters. -/
def exHaps7 : Haps := [("01".toList, "01".toList), ("10".toList, "10".toList)]

/-- Positions for the iHS emission scenario. -/
def exPos7 : List ℤ := [100, 200]

/-- C7: the per-site iHS computation emits an output row exactly when both
accumulated integrals are at least 0.0001; the emitted row's printed
columns are, in order: seqid, position, allele frequency, `ihhR`, `ihhA`,
`ln(ihhA/ihhR)`, the reference-side counter `c1 + c2` and the
alternate-side counter `c3 + c4`; and each counter is nonzero exactly when
at least one of that allele's two boundary integrations returned a nonzero
code. -/
theorem iHS_emission_policy (gm : GMap) (haps : Haps) (nhaps : ℕ) (pos : List ℤ)
    (afs : List ℚ) (maxl snp : ℤ) (seqid : List Char)
    (d1 d2 : ℚ) (c1 c2 c3 c4 : ℤ) (ihh1 ihhR ihh3 ihhA : ℚ)
    (hd1 : d1 = (((countHaps nhaps haps snp (snp + 1)).lookup ['0']).getD 0 : ℕ))
    (hd2 : d2 = (((countHaps nhaps haps snp (snp + 1)).lookup ['1']).getD 0 : ℕ))
    (H1 : IHS.integrate gm haps pos true maxl snp '0' nhaps 0 d1 = some (c1, ihh1))
    (H2 : IHS.integrate gm haps pos false maxl snp '0' nhaps ihh1 d1 = some (c2, ihhR))
    (H3 : IHS.integrate gm haps pos true maxl snp '1' nhaps 0 d2 = some (c3, ihh3))
    (H4 : IHS.integrate gm haps pos false maxl snp '1' nhaps ihh3 d2 = some (c4, ihhA)) :
    ((∃ r : IHS.Row, IHS.siteCalc gm haps nhaps pos afs maxl snp = some (some r))
      ↔ (1/10000 ≤ ihhR ∧ 1/10000 ≤ ihhA))
    ∧ (∀ r : IHS.Row, IHS.siteCalc gm haps nhaps pos afs maxl snp = some (some r) →
        r.printed seqid
          = (seqid, posAt pos snp, afs.getD snp.toNat 0, ihhR, ihhA,
             Real.log ((ihhA : ℝ) / (ihhR : ℝ)), c1 + c2, c3 + c4))
    ∧ (c1 + c2 ≠ 0 ↔ (c1 ≠ 0 ∨ c2 ≠ 0))
    ∧ (c3 + c4 ≠ 0 ↔ (c3 ≠ 0 ∨ c4 ≠ 0)) := by
  subst hd1 hd2
  have hsite : IHS.siteCalc gm haps nhaps pos afs maxl snp
      = if ihhR < 1/10000 ∨ ihhA < 1/10000 then some none
        else some (some ⟨posAt pos snp, afs.getD snp.toNat 0, ihhR, ihhA, c1 + c2, c3 + c4⟩) := by
    unfold IHS.siteCalc
    dsimp only
    rw [H1]
    dsimp only
    rw [H2]
    dsimp only
    rw [H3]
    dsimp only
    rw [H4]
  have hc1 := IHS.integrate_code gm haps pos true maxl snp '0' nhaps 0 _ c1 ihh1 H1
  have hc2 := IHS.integrate_code gm haps pos false maxl snp '0' nhaps ihh1 _ c2 ihhR H2
  have hc3 := IHS.integrate_code gm haps pos true maxl snp '1' nhaps 0 _ c3 ihh3 H3
  have hc4 := IHS.integrate_code gm haps pos false maxl snp '1' nhaps ihh3 _ c4 ihhA H4
  refine ⟨?_, ?_, by omega, by omega⟩
  · by_cases hcond : ihhR < 1/10000 ∨ ihhA < 1/10000
    · rw [hsite, if_pos hcond]
      constructor
      · rintro ⟨r, hr⟩
        injection hr with hr1
        exact Option.noConfusion hr1
      · rintro ⟨ha, hb⟩
        rcases hcond with hc | hc <;> linarith
    · rw [hsite, if_neg hcond]
      push_neg at hcond
      exact ⟨fun _ => ⟨hcond.1, hcond.2⟩, fun _ => ⟨_, rfl⟩⟩
  · intro r h
    rw [hsite] at h
    by_cases hcond : ihhR < 1/10000 ∨ ihhA < 1/10000
    · rw [if_pos hcond] at h
      injection h with h1
      exact Option.noConfusion h1
    · rw [if_neg hcond] at h
      injection h with h1
      injection h1 with h2
      subst h2
      rfl

/-- Witness for C7 on the concrete `exHaps7` matrix: the row is emitted
with both integrals `3/1000` and both failure counters 2. -/
theorem iHS_emission_policy_witness :
    ((∃ r : IHS.Row, IHS.siteCalc [] exHaps7 2 exPos7 [1/2, 1/2] 2 0 = some (some r))
      ↔ ((1 : ℚ)/10000 ≤ 3/1000 ∧ (1 : ℚ)/10000 ≤ 3/1000))
    ∧ (∀ r : IHS.Row, IHS.siteCalc [] exHaps7 2 exPos7 [1/2, 1/2] 2 0 = some (some r) →
        r.printed "chr1".toList
          = ("chr1".toList, posAt exPos7 0, ([(1 : ℚ)/2, 1/2].getD (0 : ℤ).toNat 0), 3/1000, 3/1000,
             Real.log (((3/1000 : ℚ) : ℝ) / ((3/1000 : ℚ) : ℝ)), 1 + 1, 1 + 1))
    ∧ ((1 : ℤ) + 1 ≠ 0 ↔ ((1 : ℤ) ≠ 0 ∨ (1 : ℤ) ≠ 0))
    ∧ ((1 : ℤ) + 1 ≠ 0 ↔ ((1 : ℤ) ≠ 0 ∨ (1 : ℤ) ≠ 0)) :=
  iHS_emission_policy [] exHaps7 2 exPos7 [1/2, 1/2] 2 0 "chr1".toList
    2 2 1 1 1 1 (1/500) (3/1000) (1/500) (3/1000)
    (by decide) (by decide) (by decide) (by decide) (by decide) (by decide)

/-! ## Homozygosity stays in the unit interval -/

/-- The haplotype copies processed by `countHaps`, in processing order
(first copy then second copy of each sample). -/
def copies (nhaps : ℕ) (haps : Haps) : List (List Char) :=
  (haps.take nhaps).flatMap (fun hp => [hp.1, hp.2])

/-- The boundary character `computeNs` inspects: the first character of
the window substring when the end is extending, the last one otherwise. -/
def boundaryChar (dir : Bool) (k : List Char) : Char :=
  if dir then k.headD ' ' else k.getLastD ' '

/-- Number of strings in a list satisfying `P`. -/
def countPl (l : List (List Char)) (P : List Char → Prop) [DecidablePred P] : ℕ :=
  (l.map (fun h => if P h then 1 else 0)).sum

/-- Total count mass of the entries whose key satisfies `P`. -/
def sumP (m : CountMap) (P : List Char → Prop) [DecidablePred P] : ℕ :=
  (m.map (fun th => if P th.1 then th.2 else 0)).sum

/-- Unordered-pair mass of the entries whose key satisfies `P` (only
entries with count at least 2, as in `computeNs`). -/
def pairsSum (m : CountMap) (P : List Char → Prop) [DecidablePred P] : ℕ :=
  (m.map (fun th => if P th.1 ∧ 2 ≤ th.2 then th.2.choose 2 else 0)).sum

/-- Splitting count over an appended list. -/
theorem countPl_append (l1 l2 : List (List Char)) (P : List Char → Prop) [DecidablePred P] :
    countPl (l1 ++ l2) P = countPl l1 P + countPl l2 P := by
  simp [countPl]

/-- `bump` adds one unit of count mass at its key. -/
theorem sumP_bump (m : CountMap) (k : List Char) (P : List Char → Prop) [DecidablePred P] :
    sumP (bump m k) P = sumP m P + (if P k then 1 else 0) := by
  induction m with
  | nil =>
    by_cases h : P k <;> simp [bump, sumP, h]
  | cons th m ih =>
    obtain ⟨k0, c⟩ := th
    by_cases hk : k0 = k
    · subst hk
      rw [bump, if_pos rfl]
      by_cases h : P k0 <;> simp [sumP, h] <;> omega
    · rw [bump, if_neg hk]
      simp only [sumP, List.map_cons, List.sum_cons] at ih ⊢
      rw [ih]
      omega

/-- The count mass of the map built by `countHaps` is the number of copies
whose window substring satisfies `P`. -/
theorem sumP_countHaps (P : List Char → Prop) [DecidablePred P] (s e : ℤ) :
    ∀ (l : List (List Char × List Char)) (m : CountMap),
      sumP (l.foldl (fun m hp => bump (bump m (winSub hp.1 s e)) (winSub hp.2 s e)) m) P
        = sumP m P
          + countPl (l.flatMap (fun hp => [hp.1, hp.2])) (fun h => P (winSub h s e)) := by
  intro l
  induction l with
  | nil =>
    intro m
    simp [countPl]
  | cons hp l ih =>
    intro m
    rw [List.foldl_cons, ih, sumP_bump, sumP_bump, List.flatMap_cons, countPl_append]
    by_cases h1 : P (winSub hp.1 s e) <;> by_cases h2 : P (winSub hp.2 s e) <;>
      simp [countPl, h1, h2] <;> omega

/-- One entry of the `computeNs` fold contributes exactly its pair mass
when its boundary character is the anchor and its count is at least 2. -/
theorem computeNs_step (s : ℚ) (th : List Char × ℕ) (ref : Char) (dir : Bool) :
    (if th.2 < 2 then s
     else if dir then
       (if th.1.headD ' ' = ref then s + r8_choose th.2 2 else s)
     else
       (if th.1.getLastD ' ' = ref then s + r8_choose th.2 2 else s))
      = s + ((if boundaryChar dir th.1 = ref ∧ 2 ≤ th.2 then th.2.choose 2 else 0 : ℕ) : ℚ) := by
  obtain ⟨k, c⟩ := th
  have hval : r8_choose (c : ℤ) 2 = (c.choose 2 : ℚ) := by
    unfold r8_choose
    norm_num
    rfl
  by_cases hc : c < 2
  · have hno : ¬ (boundaryChar dir k = ref ∧ 2 ≤ c) := fun h => by omega
    rw [if_pos hc, if_neg hno]
    simp
  · rw [if_neg hc]
    cases dir with
    | true =>
      rw [if_pos rfl]
      by_cases hb : k.headD ' ' = ref
      · have hbc : boundaryChar true k = ref ∧ 2 ≤ c :=
          ⟨by simpa [boundaryChar] using hb, by omega⟩
        rw [if_pos hb, if_pos hbc, hval]
      · have hno : ¬ (boundaryChar true k = ref ∧ 2 ≤ c) :=
          fun h => hb (by simpa [boundaryChar] using h.1)
        rw [if_neg hb, if_neg hno]
        simp
    | false =>
      rw [if_neg (by simp : ¬ false = true)]
      by_cases hb : k.getLastD ' ' = ref
      · have hbc : boundaryChar false k = ref ∧ 2 ≤ c :=
          ⟨by simpa [boundaryChar] using hb, by omega⟩
        rw [if_pos hb, if_pos hbc, hval]
      · have hno : ¬ (boundaryChar false k = ref ∧ 2 ≤ c) :=
          fun h => hb (by simpa [boundaryChar] using h.1)
        rw [if_neg hb, if_neg hno]
        simp

/-- `computeNs` computes exactly the rational cast of the pair mass of the
entries whose boundary character is the anchor allele. -/
theorem computeNs_eq (ref : Char) (dir : Bool) :
    ∀ (m : CountMap),
      computeNs m ref dir = (pairsSum m (fun k => boundaryChar dir k = ref) : ℚ) := by
  have haux : ∀ (m : CountMap) (s0 : ℚ),
      m.foldl
        (fun s th =>
          if th.2 < 2 then s
          else if dir then
            (if th.1.headD ' ' = ref then s + r8_choose th.2 2 else s)
          else
            (if th.1.getLastD ' ' = ref then s + r8_choose th.2 2 else s))
        s0
        = s0 + (pairsSum m (fun k => boundaryChar dir k = ref) : ℚ) := by
    intro m
    induction m with
    | nil =>
      intro s0
      simp [pairsSum]
    | cons th m ih =>
      intro s0
      rw [List.foldl_cons, computeNs_step, ih]
      simp only [pairsSum, List.map_cons, List.sum_cons]
      push_cast
      ring
  intro m
  have h := haux m 0
  unfold computeNs
  rw [h]
  ring

/-- Superadditivity of unordered-pair counts. -/
theorem choose_two_add (a b : ℕ) : a.choose 2 + b.choose 2 ≤ (a + b).choose 2 := by
  induction b with
  | zero => simp
  | succ b ih =>
    have h1 : (b + 1).choose 2 = b.choose 2 + b := by
      rw [Nat.choose_succ_succ, Nat.choose_one_right]
      norm_num
      omega
    have h2 : (a + (b + 1)).choose 2 = (a + b).choose 2 + (a + b) := by
      have he : a + (b + 1) = (a + b) + 1 := by omega
      rw [he, Nat.choose_succ_succ, Nat.choose_one_right]
      norm_num
      omega
    omega

/-- The pair mass over a family of entries is at most the pairs of the
total count mass. -/
theorem pairsSum_le (P : List Char → Prop) [DecidablePred P] :
    ∀ (m : CountMap), pairsSum m P ≤ (sumP m P).choose 2 := by
  intro m
  induction m with
  | nil => simp [pairsSum, sumP]
  | cons th m ih =>
    obtain ⟨k, c⟩ := th
    have hp : pairsSum ((k, c) :: m) P
        = (if P k ∧ 2 ≤ c then c.choose 2 else 0) + pairsSum m P := by
      simp only [pairsSum, List.map_cons, List.sum_cons]
    have hs : sumP ((k, c) :: m) P = (if P k then c else 0) + sumP m P := by
      simp only [sumP, List.map_cons, List.sum_cons]
    rw [hp, hs]
    by_cases hP : P k
    · rw [if_pos hP]
      by_cases hc : 2 ≤ c
      · rw [if_pos ⟨hP, hc⟩]
        exact le_trans (Nat.add_le_add_left ih _) (choose_two_add _ _)
      · rw [if_neg (fun h => hc h.2), Nat.zero_add]
        exact le_trans ih (Nat.choose_le_choose 2 (Nat.le_add_left _ _))
    · rw [if_neg (fun h => hP h.1), if_neg hP]
      simpa using ih

/-- Two diploid samples over two sites used to witness the homozygosity
bound: haplotype copies `01`, `01`, `10`, `10`. -/
def exHaps8 : Haps := [(['0', '1'], ['0', '1']), (['1', '0'], ['1', '0'])]

/-- C8: for every window, anchor allele, and direction, when the denominator
`d` equals the number of haplotype copies whose window boundary character is
the anchor allele (as in both drivers, which pass the focal allele count),
`calcEhh` succeeds and returns the homozygosity
`computeNs / C(d, 2)`, a value in `[0, 1]` (the fatal branch is not taken);
moreover any value `calcEhh` ever returns, for any denominator, is that raw
quotient and satisfies `¬ 1 < q` — values above 1 hit the fatal
internal-error exit instead of being clamped into range. -/
theorem calcEhh_unit_interval (haps : Haps) (start e : ℤ) (ref : Char)
    (nhaps : ℕ) (dir : Bool) (d : ℕ) (div q : ℚ)
    (hd : d = countPl (copies nhaps haps)
        (fun h => boundaryChar dir (winSub h start e) = ref))
    (hq : calcEhh haps start e ref nhaps div dir = some q) :
    calcEhh haps start e ref nhaps (d : ℚ) dir
        = some (computeNs (countHaps nhaps haps start e) ref dir
            / r8_choose (d : ℤ) 2)
      ∧ 0 ≤ computeNs (countHaps nhaps haps start e) ref dir
            / r8_choose (d : ℤ) 2
      ∧ computeNs (countHaps nhaps haps start e) ref dir
            / r8_choose (d : ℤ) 2 ≤ 1
      ∧ q = computeNs (countHaps nhaps haps start e) ref dir
            / r8_choose (truncToInt div) 2
      ∧ ¬ 1 < q := by
  have hcal : ∀ dv : ℚ, calcEhh haps start e ref nhaps dv dir
      = (if computeNs (countHaps nhaps haps start e) ref dir
            / r8_choose (truncToInt dv) 2 > 1 then none
         else some (computeNs (countHaps nhaps haps start e) ref dir
            / r8_choose (truncToInt dv) 2)) := fun dv => rfl
  have htr : truncToInt ((d : ℕ) : ℚ) = (d : ℤ) := by
    unfold truncToInt
    rw [if_pos (by positivity)]
    exact Int.floor_natCast d
  have hrc : r8_choose (d : ℤ) 2 = (d.choose 2 : ℚ) := by
    unfold r8_choose
    norm_num
    rfl
  have hsum : sumP (countHaps nhaps haps start e)
        (fun k => boundaryChar dir k = ref)
      = countPl (copies nhaps haps)
        (fun h => boundaryChar dir (winSub h start e) = ref) := by
    have h := sumP_countHaps (fun k => boundaryChar dir k = ref) start e
        (haps.take nhaps) []
    simpa [countHaps, copies, sumP] using h
  have hple := pairsSum_le (fun k => boundaryChar dir k = ref)
      (countHaps nhaps haps start e)
  rw [hsum, ← hd] at hple
  have hcn : computeNs (countHaps nhaps haps start e) ref dir
      = (pairsSum (countHaps nhaps haps start e)
          (fun k => boundaryChar dir k = ref) : ℚ) :=
    computeNs_eq ref dir _
  have hmain : computeNs (countHaps nhaps haps start e) ref dir
        / r8_choose (d : ℤ) 2 ≤ 1
      ∧ 0 ≤ computeNs (countHaps nhaps haps start e) ref dir
        / r8_choose (d : ℤ) 2 := by
    rw [hrc, hcn]
    by_cases h0 : d.choose 2 = 0
    · have hz : pairsSum (countHaps nhaps haps start e)
          (fun k => boundaryChar dir k = ref) = 0 := by omega
      rw [hz, h0]
      norm_num
    · have hpos : (0 : ℚ) < (d.choose 2 : ℚ) := by
        exact_mod_cast Nat.pos_of_ne_zero h0
      refine ⟨?_, div_nonneg (by positivity) hpos.le⟩
      rw [div_le_one hpos]
      exact_mod_cast hple
  have hfirst : calcEhh haps start e ref nhaps ((d : ℕ) : ℚ) dir
      = some (computeNs (countHaps nhaps haps start e) ref dir
          / r8_choose (d : ℤ) 2) := by
    rw [hcal, htr, if_neg (not_lt.mpr hmain.1)]
  rw [hcal] at hq
  by_cases hgt : computeNs (countHaps nhaps haps start e) ref dir
      / r8_choose (truncToInt div) 2 > 1
  · rw [if_pos hgt] at hq
    exact absurd hq (by simp)
  · rw [if_neg hgt] at hq
    have h := Option.some.inj hq
    subst h
    exact ⟨hfirst, hmain.2, hmain.1, rfl, hgt⟩

/-- Witness for C8 at `exHaps8`, window `[0, 1)`, anchor `0`, rightward,
denominator 2: the hypotheses hold and `calcEhh` returns exactly 1. -/
theorem calcEhh_unit_interval_witness :
    ((2 : ℕ) = countPl (copies 2 exHaps8)
        (fun h => boundaryChar true (winSub h 0 1) = '0'))
    ∧ calcEhh exHaps8 0 1 '0' 2 2 true = some 1
    ∧ (calcEhh exHaps8 0 1 '0' 2 ((2 : ℕ) : ℚ) true
          = some (computeNs (countHaps 2 exHaps8 0 1) '0' true
              / r8_choose ((2 : ℕ) : ℤ) 2)
        ∧ 0 ≤ computeNs (countHaps 2 exHaps8 0 1) '0' true
              / r8_choose ((2 : ℕ) : ℤ) 2
        ∧ computeNs (countHaps 2 exHaps8 0 1) '0' true
              / r8_choose ((2 : ℕ) : ℤ) 2 ≤ 1
        ∧ (1 : ℚ) = computeNs (countHaps 2 exHaps8 0 1) '0' true
              / r8_choose (truncToInt 2) 2
        ∧ ¬ (1 : ℚ) < 1) :=
  ⟨by decide, by decide,
    calcEhh_unit_interval exHaps8 0 1 '0' 2 true 2 2 1 (by decide) (by decide)⟩

end Vcflib
